import Mathlib

/-!
Demand-paged address translation: `src/mmu.c`.

A shallow embedding of the translation loop of `main` in `src/mmu.c` and the
properties of it that the specification states.

Modelling conventions.

* A C array is a function on its indices; only indices below the array's
  length are meaningful.  A loop that treats every element of an array alike
  is the pointwise map of its body.
* `int` variables are unbounded (`Int`, or `Nat` for the pure counters
  `count`, `page_fault`, `free_frame`, `hits`): reaching `INT_MAX` takes more
  than `2^31 - 1` input lines.
* `char` is signed and eight bits wide; storing an `int` into a `char` or an
  `unsigned char` reduces it modulo 256 (`toChar`, `toUChar`).
* The address stream is the list of the values `atoi` returns for the input
  lines, taken to be non-negative.
* `main_mem` is flattened to one function on byte indices, as the source
  itself does when it reads `*((char*)main_mem + physical)`.  Its initial
  contents are a parameter (the array is never initialised).  A read whose
  index lies outside the `num_frames * 256` bytes of the pool yields `none`;
  a frame copy whose frame index lies outside the pool leaves the pool
  unchanged.
* The backing store is the list of the bytes of the file.
* The start of `main` (size selector and the three `fopen` calls) runs over a
  map from file names to contents; `fopen(name, "w")` is taken to succeed.
-/

namespace Mmu

/-! ## Machine bytes -/

/-- Value held by a C `char` (signed, eight bits) after an integer is stored in it. -/
def toChar (n : Int) : Int :=
  if n % 256 < 128 then n % 256 else n % 256 - 256

/-- Value held by a C `unsigned char` after an integer is stored in it. -/
def toUChar (n : Int) : Nat :=
  (n % 256).toNat

/-! ## Data model -/

/-- The `struct TLB` of the source: sixteen page numbers, sixteen frame numbers
(both `unsigned char`) and the FIFO cursor `index`. -/
structure TLB where
  page : Nat → Nat
  frame : Nat → Nat
  index : Nat

/-- The `struct PageTable` of the source: per page a frame number (`char`), a
valid bit and an aging counter (both `int`). -/
structure PageTable where
  table : Nat → Int
  valid : Nat → Int
  counter : Nat → Int

/-- The variables of `main` that live across iterations of the translation loop. -/
structure State where
  tlb : TLB
  pt : PageTable
  main_mem : Nat → Int
  count : Nat
  page_fault : Nat
  free_frame : Nat
  hits : Nat

/-- One line of the output file: `logical,physical,value`.  The value is `none`
when the byte read lies outside the frame pool. -/
structure Row where
  logical : Nat
  physical : Nat
  value : Option Int
deriving DecidableEq

/-- State before the first address (lines 72-85): page table invalid, every TLB
byte set by `memset(-1)`, that is 255 in an `unsigned char`, all counters zero.
The frame pool holds whatever `mem0` says. -/
def init (mem0 : Nat → Int) : State where
  tlb := { page := fun _ => toUChar (-1), frame := fun _ => toUChar (-1), index := 0 }
  pt := { table := fun _ => -1, valid := fun _ => 0, counter := fun _ => -1 }
  main_mem := mem0
  count := 0
  page_fault := 0
  free_frame := 0
  hits := 0

/-! ## Operations -/

/-- Lines 93-94: `page = (logical >> OFFSET) & MASK`, `offset = logical & MASK`. -/
def decode (logical : Nat) : Nat × Nat :=
  ((logical >>> 8) &&& 255, logical &&& 255)

/-- Lines 98-105: the first of the sixteen slots whose page equals `page`. -/
def tlbLookup (tlb : TLB) (page : Nat) : Option Nat :=
  (List.range 16).find? (fun i => tlb.page i == page)

/-- Lines 164-166: overwrite the slot at the cursor and advance the cursor. -/
def tlbInsert (tlb : TLB) (page : Nat) (frame : Nat) : TLB where
  page := Function.update tlb.page tlb.index page
  frame := Function.update tlb.frame tlb.index frame
  index := (tlb.index + 1) % 16

/-- Lines 114-122: `mem_contents` after `memset 0`, `fseek` to `page * 256` and
`fread` of up to 256 bytes: the bytes the store has, as `char`, and 0 beyond
the end of the store. -/
def readPage (store : List Nat) (page : Nat) : Nat → Int := fun i =>
  match store[page * 256 + i]? with
  | some b => toChar b
  | none => 0

/-- Lines 127-129 and 149-151: copy `mem_contents` into frame `frame` of the pool. -/
def writeFrame (mem : Nat → Int) (frame : Int) (mem_contents : Nat → Int) : Nat → Int :=
  fun a =>
    if frame * 256 ≤ (a : Int) ∧ (a : Int) < frame * 256 + 256 then
      mem_contents ((a : Int) - frame * 256).toNat
    else mem a

/-- Lines 140-145: the scan for the page with the largest counter. -/
def victim (counter : Nat → Int) : Nat :=
  (List.range 256).foldl (fun least i => if counter i > counter least then i else least) 0

/-- Lines 171-175: every counter above -1 is incremented. -/
def age (counter : Nat → Int) : Nat → Int := fun i =>
  if counter i > -1 then counter i + 1 else counter i

/-- Lines 111-159: the body of `if (pt.valid[page] == 0)`. -/
def pageFault (num_frames : Nat) (store : List Nat) (s : State) (page : Nat) : State :=
  let mem_contents := readPage store page
  if s.free_frame < num_frames then
    { s with
      page_fault := s.page_fault + 1
      main_mem := writeFrame s.main_mem s.free_frame mem_contents
      pt := { s.pt with
        table := Function.update s.pt.table page (toChar s.free_frame)
        valid := Function.update s.pt.valid page 1 }
      free_frame := s.free_frame + 1 }
  else
    let least := victim s.pt.counter
    let new_frame := s.pt.table least
    { s with
      page_fault := s.page_fault + 1
      main_mem := writeFrame s.main_mem new_frame mem_contents
      pt := {
        table := Function.update (Function.update s.pt.table page (toChar new_frame)) least (-1)
        valid := Function.update (Function.update s.pt.valid page 1) least 0
        counter := Function.update s.pt.counter least (-1) } }

/-- Lines 96-167: the frame found for `page` and the state after the TLB lookup
and, on a miss, the page-table lookup, the page fault and the TLB insert. -/
def resolve (num_frames : Nat) (store : List Nat) (s : State) (page : Nat) : State × Int :=
  match tlbLookup s.tlb page with
  | some i => ({ s with hits := s.hits + 1 }, (s.tlb.frame i : Int))
  | none =>
    let s1 := if s.pt.valid page = 0 then pageFault num_frames store s page else s
    ({ s1 with tlb := tlbInsert s1.tlb page (toUChar (s1.pt.table page)) }, s1.pt.table page)

/-- Lines 169-175: reset the counter of the page accessed, then age the counters. -/
def touch (s : State) (page : Nat) : State :=
  { s with pt := { s.pt with counter := age (Function.update s.pt.counter page 0) } }

/-- Lines 88-181: one iteration of the `while` loop: the next state and the row printed. -/
def step (num_frames : Nat) (store : List Nat) (s : State) (logical : Nat) : State × Row :=
  let page := (decode logical).1
  let offset := (decode logical).2
  let r := resolve num_frames store { s with count := s.count + 1 } page
  let s3 := touch r.1 page
  let physical := toUChar r.2 * 256 + offset
  let value := if physical < num_frames * 256 then some (s3.main_mem physical) else none
  (s3, { logical := logical, physical := physical, value := value })

/-- State after the whole address stream. -/
def final (num_frames : Nat) (store : List Nat) (s : State) : List Nat → State
  | [] => s
  | a :: as => final num_frames store (step num_frames store s a).1 as

/-- Rows printed for the whole address stream. -/
def rows (num_frames : Nat) (store : List Nat) (s : State) : List Nat → List Row
  | [] => []
  | a :: as => (step num_frames store s a).2 :: rows num_frames store (step num_frames store s a).1 as

/-- The branch of the loop body an address takes. -/
inductive Path where
  | tlbHit
  | tableHit
  | faultAlloc
  | faultEvict
deriving DecidableEq

/-- The branch taken for `logical` in state `s` (conditions of lines 99, 110, 125). -/
def path (num_frames : Nat) (s : State) (logical : Nat) : Path :=
  match tlbLookup s.tlb (decode logical).1 with
  | some _ => Path.tlbHit
  | none =>
    if s.pt.valid (decode logical).1 = 0 then
      if s.free_frame < num_frames then Path.faultAlloc else Path.faultEvict
    else Path.tableHit

/-- Line 183: `(page_fault / (count * 1.0)) * 100`, in exact arithmetic. -/
def faultRate (s : State) : ℚ :=
  ((s.page_fault : ℚ) / ((s.count : ℚ) * 1)) * 100

/-- Line 184: `(hits / (count * 1.0)) * 100`, in exact arithmetic. -/
def tlbHitRate (s : State) : ℚ :=
  ((s.hits : ℚ) / ((s.count : ℚ) * 1)) * 100

/-- The `%.2f` conversion: the nearest multiple of one hundredth. -/
def twoDecimals (r : ℚ) : ℚ :=
  (round (r * 100) : ℚ) / 100

/-- Number of page-table entries with `valid == 1`. -/
def validCount (s : State) : Nat :=
  ((List.range 256).filter (fun p => s.pt.valid p = 1)).length

/-- Pages held by the sixteen TLB slots. -/
def tlbPages (tlb : TLB) : Finset Nat :=
  (Finset.range 16).image tlb.page

/-- Pages with `valid == 1`. -/
def validSet (s : State) : Finset Nat :=
  (Finset.range 256).filter (fun p => s.pt.valid p = 1)

/-- Pages whose counter is present and at most `c`, together with the pages in the TLB. -/
def recent (s : State) (c : Int) : Finset Nat :=
  (Finset.range 256).filter (fun q => -1 < s.pt.counter q ∧ s.pt.counter q ≤ c) ∪ tlbPages s.tlb

/-- Page table, frame pool and store agree: what holds of the page table in
every state reached on a stream that never names page 255. -/
structure PtInv (num_frames : Nat) (store : List Nat) (s : State) : Prop where
  free_le : s.free_frame ≤ num_frames
  valid_card : (validSet s).card = s.free_frame
  valid01 : ∀ p, s.pt.valid p = 0 ∨ s.pt.valid p = 1
  valid255 : ∀ p, 255 ≤ p → s.pt.valid p = 0
  counter_iff : ∀ p, s.pt.valid p = 1 ↔ -1 < s.pt.counter p
  counter_pos : ∀ p, -1 < s.pt.counter p → 1 ≤ s.pt.counter p
  table_char : ∀ p, s.pt.valid p = 1 → -128 ≤ s.pt.table p ∧ s.pt.table p < 128
  frame_lt : ∀ p, s.pt.valid p = 1 → toUChar (s.pt.table p) < s.free_frame
  frame_inj : ∀ p q, s.pt.valid p = 1 → s.pt.valid q = 1 →
    toUChar (s.pt.table p) = toUChar (s.pt.table q) → p = q
  frame_mem : ∀ p, s.pt.valid p = 1 → ∀ i, i < 256 →
    s.main_mem (toUChar (s.pt.table p) * 256 + i) = readPage store p i

/-- The invariant of the translation loop on a stream that never names page
255: the page-table invariant, every TLB slot is either untouched or agrees
with the page table, and a page in the TLB is among the few most recently
used pages. -/
structure Inv (num_frames : Nat) (store : List Nat) (s : State)
    extends PtInv num_frames store s : Prop where
  index_lt : s.tlb.index < 16
  tlb_ok : ∀ i, i < 16 → s.tlb.page i = 255 ∨
    (s.pt.valid (s.tlb.page i) = 1 ∧ s.tlb.frame i = toUChar (s.pt.table (s.tlb.page i)))
  tlb_recent : ∀ i, i < 16 → s.tlb.page i ≠ 255 →
    (recent s (s.pt.counter (s.tlb.page i))).card ≤ 16 + (s.tlb.index + 15 - i) % 16

/-- The state after `k ≥ 1` addresses that all lie on page `p`, starting from
`init`: slot 0 of the TLB maps `p` to frame 0, frame 0 holds the page, and the
statistics are one fault and `k - 1` hits. -/
structure OnePage (store : List Nat) (p k : Nat) (t : State) : Prop where
  slot_page : t.tlb.page 0 = p
  slot_frame : t.tlb.frame 0 = 0
  frame_zero : ∀ i, i < 256 → t.main_mem i = readPage store p i
  faults : t.page_fault = 1
  hits : t.hits + 1 = k
  count : t.count = k

/-- Backing store of the specification's scenario: 65536 bytes, all zero except
page 3, which is filled with 7. -/
def scenarioStore : List Nat :=
  List.replicate 768 0 ++ (List.replicate 256 7 ++ List.replicate 64512 0)

/-- A stream that names page 255 first and then the pages 0, 1, ..., 128 once each. -/
def phantomStream : List Nat :=
  65280 :: (List.range 129).map fun p => p * 256

/-- The state after address 65280 followed by one address on each of the pages
`0 .. k-1`: these pages are the valid ones, page 255 is invalid and has no
frame, yet its counter is present and the largest of all. -/
structure Fill (k : Nat) (s : State) : Prop where
  valid_lt : ∀ q, s.pt.valid q = if q < k then 1 else 0
  counter_top : s.pt.counter 255 = k + 1
  counter_le : ∀ q, q ≠ 255 → s.pt.counter q ≤ k
  table_top : s.pt.table 255 = -1
  free : s.free_frame = k
  tlb_pages : ∀ i, i < 16 → s.tlb.page i = 255 ∨ s.tlb.page i < k

/-- What holds of every state reached from `init`, on any stream and for any
number of frames: counters are -1 or positive, a valid page has a counter,
at least `free_frame` pages are valid, and a page held by a TLB slot whose
counter is present is among the few most recently used pages. -/
structure GInv (s : State) : Prop where
  index_lt : s.tlb.index < 16
  counter_pos : ∀ p, s.pt.counter p = -1 ∨ 1 ≤ s.pt.counter p
  valid01 : ∀ p, s.pt.valid p = 0 ∨ s.pt.valid p = 1
  valid_counter : ∀ p, s.pt.valid p = 1 → -1 < s.pt.counter p
  valid_card : s.free_frame ≤ (validSet s).card
  tlb_recent : ∀ i, i < 16 → -1 < s.pt.counter (s.tlb.page i) →
    (recent s (s.pt.counter (s.tlb.page i))).card ≤ 16 + (s.tlb.index + 15 - i) % 16

/-- Position `j` holds the most recent address of `as` that decodes to page `p`. -/
def LastAccess (as : List Nat) (p j : Nat) : Prop :=
  (∃ a, as[j]? = some a ∧ (decode a).1 = p) ∧
  ∀ k a, j < k → as[k]? = some a → (decode a).1 ≠ p

/-- The TLB as a ring, in every state reached from `init`: `count - hits`
inserts have been made, the cursor is that number modulo 16, a slot no insert
has reached still holds the initial 255, and two slots hold the same page only
if no insert has reached either. -/
structure Ring (s : State) : Prop where
  hits_le : s.hits ≤ s.count
  index_eq : s.tlb.index = (s.count - s.hits) % 16
  fresh : ∀ i, i < 16 → s.count - s.hits ≤ i → s.tlb.page i = 255
  distinct : ∀ i j, i < 16 → j < 16 → i ≠ j → s.tlb.page i = s.tlb.page j →
    s.count - s.hits ≤ i ∧ s.count - s.hits ≤ j

/-- What holds of every state reached with 256 frames: every fault so far was
an allocation, so faults, frames handed out and valid pages are equal in number. -/
structure AllocOnly (s : State) : Prop where
  valid01 : ∀ p, s.pt.valid p = 0 ∨ s.pt.valid p = 1
  valid_card : (validSet s).card = s.free_frame
  faults : s.page_fault = s.free_frame

/-! ## Start of `main` -/

/-- How lines 36-67 of `main` end: with the message of line 54, with the
message of line 65, or with the three files open and the loop about to run. -/
inductive Startup where
  | invalidSize
  | openFailed
  | ready (num_frames : Nat) (backing_store : List Nat) (input : List Nat) (output : String)
deriving DecidableEq

/-- Lines 46-56: the output name and the number of frames for the size selector. -/
def selectSize (size : Int) : Option (String × Nat) :=
  if size = 256 then some ("output256.csv", 256)
  else if size = 128 then some ("output128.csv", 128)
  else none

/-- Lines 46-67.  The files are a map from names to contents, `none` for a name
`fopen(name, "r")` cannot open.  `fopen(output, "w")` (line 61) creates the
output file or truncates it to length zero, and it runs before the test of
line 64.  The result is the files afterwards and how the start ended. -/
def startup (size : Int) (backing input : String) (fs : String → Option (List Nat)) :
    (String → Option (List Nat)) × Startup :=
  match selectSize size with
  | none => (fs, Startup.invalidSize)
  | some (output, num_frames) =>
    match fs backing, fs input with
    | some b, some i =>
      (fun name => if name = output then some [] else fs name,
        Startup.ready num_frames b i output)
    | _, _ => (fun name => if name = output then some [] else fs name, Startup.openFailed)

/-- Name of a backing store that does not exist in `demoFiles`. -/
def missingStore : String := "BACKING_STORE.bin"

/-- Name of the address list in `demoFiles`. -/
def addressList : String := "addresses.txt"

/-- Name of the output file for 128 frames. -/
def output128 : String := "output128.csv"

/-- Name of the output file for 256 frames. -/
def output256 : String := "output256.csv"

/-- A directory with an address list and an output file left by an earlier
run with 128 frames, and nothing else. -/
def demoFiles : String → Option (List Nat) := fun name =>
  if name = "addresses.txt" then some [55, 54, 56, 10]
  else if name = "output128.csv" then some [55, 54, 56, 44, 48, 44, 55, 10]
  else none

/-! ## Bytes and address decoding -/

theorem toUChar_lt (x : Int) : toUChar x < 256 := by
  unfold toUChar; omega

theorem toUChar_toChar (x : Int) : toUChar (toChar x) = toUChar x := by
  unfold toUChar toChar; split_ifs <;> omega

theorem toUChar_natCast (n : Nat) (h : n < 256) : toUChar (n : Int) = n := by
  unfold toUChar; omega

theorem toChar_range (x : Int) : -128 ≤ toChar x ∧ toChar x < 128 := by
  unfold toChar; split_ifs <;> omega

theorem toChar_of_range (x : Int) (h1 : -128 ≤ x) (h2 : x < 128) : toChar x = x := by
  unfold toChar; split_ifs <;> omega

theorem decode_eq (L : Nat) : decode L = (L / 256 % 256, L % 256) := by
  unfold decode
  have h1 : ∀ x : Nat, x &&& 255 = x % 256 := fun x => Nat.and_pow_two_sub_one_eq_mod x 8
  rw [h1, h1, Nat.shiftRight_eq_div_pow]

theorem decode_fst_lt (L : Nat) : (decode L).1 < 256 := by
  rw [decode_eq]; simp only; omega

theorem decode_snd_lt (L : Nat) : (decode L).2 < 256 := by
  rw [decode_eq]; simp only; omega

/-- C3: for every non-negative logical address the page is `(L >> 8) & 0xFF`
and the offset `L & 0xFF`, both in [0, 255]; `page * 256 + offset = L` for
`L` up to 65535, and an address from 65536 on decodes like `L mod 65536`. -/
theorem decode_spec (L : Nat) :
    decode L = ((L >>> 8) &&& 255, L &&& 255) ∧
    (decode L).1 ≤ 255 ∧ (decode L).2 ≤ 255 ∧
    (L ≤ 65535 → (decode L).1 * 256 + (decode L).2 = L) ∧
    (65536 ≤ L → decode L = decode (L % 65536)) := by
  refine ⟨rfl, ?_, ?_, ?_, ?_⟩
  · rw [decode_eq]; simp only; omega
  · rw [decode_eq]; simp only; omega
  · intro h; rw [decode_eq]; simp only; omega
  · intro _; rw [decode_eq, decode_eq]; simp only [Prod.mk.injEq]; omega

/-! ## The TLB scan and the victim scan -/

theorem tlbLookup_some {tlb : TLB} {page j : Nat} (h : tlbLookup tlb page = some j) :
    j < 16 ∧ tlb.page j = page ∧ ∀ i, i < j → tlb.page i ≠ page := by
  unfold tlbLookup at h
  rw [List.find?_range_eq_some] at h
  obtain ⟨hp, hj, hall⟩ := h
  refine ⟨List.mem_range.mp hj, by simpa using hp, ?_⟩
  intro i hi
  simpa using hall i hi

theorem tlbLookup_none {tlb : TLB} {page : Nat} :
    tlbLookup tlb page = none ↔ ∀ i, i < 16 → tlb.page i ≠ page := by
  unfold tlbLookup
  simp [List.find?_eq_none]

theorem victim_scan (c : Nat → Int) (n : Nat) :
    (List.range (n + 1)).foldl (fun least i => if c i > c least then i else least) 0 < n + 1 ∧
    (∀ q, q < n + 1 →
      c q ≤ c ((List.range (n + 1)).foldl (fun least i => if c i > c least then i else least) 0)) ∧
    (∀ q, q < (List.range (n + 1)).foldl (fun least i => if c i > c least then i else least) 0 →
      c q < c ((List.range (n + 1)).foldl (fun least i => if c i > c least then i else least) 0)) := by
  induction n with
  | zero => simp [List.range_succ]
  | succ n ih =>
    rw [List.range_succ, List.foldl_append]
    simp only [List.foldl_cons, List.foldl_nil]
    generalize (List.range (n + 1)).foldl (fun least i => if c i > c least then i else least) 0 = v
      at ih ⊢
    obtain ⟨h1, h2, h3⟩ := ih
    split_ifs with h
    · refine ⟨by omega, ?_, ?_⟩
      · intro q hq
        by_cases hqn : q = n + 1
        · subst hqn; exact le_refl _
        · have := h2 q (by omega); omega
      · intro q hq
        have := h2 q hq; omega
    · refine ⟨by omega, ?_, h3⟩
      intro q hq
      by_cases hqn : q = n + 1
      · subst hqn; omega
      · exact h2 q (by omega)

theorem victim_lt (c : Nat → Int) : victim c < 256 :=
  (victim_scan c 255).1

theorem victim_max (c : Nat → Int) (q : Nat) (hq : q < 256) : c q ≤ c (victim c) :=
  (victim_scan c 255).2.1 q hq

theorem victim_first (c : Nat → Int) (q : Nat) (hq : q < victim c) : c q < c (victim c) :=
  (victim_scan c 255).2.2 q hq

/-! ## Counters and recency sets -/

theorem age_update (c : Nat → Int) (r p : Nat) :
    age (Function.update c r 0) p =
      if p = r then 1 else if -1 < c p then c p + 1 else c p := by
  unfold age
  by_cases h : p = r
  · subst h; simp
  · simp [Function.update_noteq h, h]

theorem mem_tlbPages {tlb : TLB} {q : Nat} : q ∈ tlbPages tlb ↔ ∃ i, i < 16 ∧ tlb.page i = q := by
  simp [tlbPages]

theorem tlbPages_card (tlb : TLB) : (tlbPages tlb).card ≤ 16 := by
  unfold tlbPages
  exact Finset.card_image_le.trans (by simp)

theorem tlbPages_insert (tlb : TLB) (p f : Nat) :
    tlbPages (tlbInsert tlb p f) ⊆ insert p (tlbPages tlb) := by
  intro q hq
  rw [mem_tlbPages] at hq
  obtain ⟨i, hi, hq⟩ := hq
  rw [Finset.mem_insert, mem_tlbPages]
  by_cases h : i = tlb.index
  · left; subst h; simpa [tlbInsert] using hq.symm
  · right; exact ⟨i, hi, by simpa [tlbInsert, Function.update_noteq h] using hq⟩

theorem mem_recent {s : State} {c : Int} {q : Nat} :
    q ∈ recent s c ↔
      (q < 256 ∧ -1 < s.pt.counter q ∧ s.pt.counter q ≤ c) ∨ q ∈ tlbPages s.tlb := by
  simp [recent]

theorem recent_sub_of_ne (s t : State) (r p : Nat)
    (hc : ∀ q, q ≠ r → -1 < t.pt.counter q →
      -1 < s.pt.counter q ∧ t.pt.counter q = s.pt.counter q + 1)
    (ht : tlbPages t.tlb ⊆ insert r (tlbPages s.tlb))
    (hp : t.pt.counter p = s.pt.counter p + 1) :
    recent t (t.pt.counter p) ⊆ insert r (recent s (s.pt.counter p)) := by
  intro q hq
  rw [Finset.mem_insert, mem_recent]
  by_cases hqr : q = r
  · exact Or.inl hqr
  · right
    rcases mem_recent.mp hq with ⟨h1, h2, h3⟩ | h
    · obtain ⟨h4, h5⟩ := hc q hqr h2
      exact Or.inl ⟨h1, h4, by omega⟩
    · have := ht h
      rw [Finset.mem_insert] at this
      exact Or.inr (this.resolve_left hqr)

theorem recent_sub_of_eq (s t : State) (r : Nat)
    (hc : ∀ q, q ≠ r → -1 < t.pt.counter q →
      -1 < s.pt.counter q ∧ t.pt.counter q = s.pt.counter q + 1)
    (hpos : ∀ q, -1 < s.pt.counter q → 1 ≤ s.pt.counter q)
    (hr : r ∈ tlbPages t.tlb) :
    recent t 1 ⊆ tlbPages t.tlb := by
  intro q hq
  rcases mem_recent.mp hq with ⟨_, h2, h3⟩ | h
  · by_cases hqr : q = r
    · rw [hqr]; exact hr
    · obtain ⟨h4, h5⟩ := hc q hqr h2
      have := hpos q h4
      omega
  · exact h

theorem tlbPages_sub_recent (s : State) (c : Int) : tlbPages s.tlb ⊆ recent s c := by
  intro q hq
  exact mem_recent.mpr (Or.inr hq)

/-! ## One step preserves the invariant -/

theorem age_cases (c : Nat → Int) (r q : Nat) (hq : q ≠ r)
    (h : -1 < age (Function.update c r 0) q) :
    -1 < c q ∧ age (Function.update c r 0) q = c q + 1 := by
  rw [age_update, if_neg hq] at h ⊢
  split_ifs at h ⊢ with h1
  · exact ⟨h1, rfl⟩
  · exact absurd h h1

theorem ptInv_touch (num_frames : Nat) (store : List Nat) (s : State) (r : Nat)
    (h : PtInv num_frames store s) (hval : s.pt.valid r = 1) :
    PtInv num_frames store (touch s r) :=
  { free_le := h.free_le
    valid_card := h.valid_card
    valid01 := h.valid01
    valid255 := h.valid255
    counter_iff := by
      intro p
      show s.pt.valid p = 1 ↔ -1 < age (Function.update s.pt.counter r 0) p
      rw [age_update]
      have h1 := h.counter_iff p
      by_cases hp : p = r
      · subst hp; simp [hval]
      · rw [if_neg hp, h1]; split_ifs <;> omega
    counter_pos := by
      intro p
      show -1 < age (Function.update s.pt.counter r 0) p →
        1 ≤ age (Function.update s.pt.counter r 0) p
      rw [age_update]
      have h1 := h.counter_pos p
      split_ifs <;> omega
    table_char := h.table_char
    frame_lt := h.frame_lt
    frame_inj := h.frame_inj
    frame_mem := h.frame_mem }

theorem ptInv_congr (num_frames : Nat) (store : List Nat) (s t : State)
    (h : PtInv num_frames store s) (hpt : t.pt = s.pt) (hm : t.main_mem = s.main_mem)
    (hf : t.free_frame = s.free_frame) : PtInv num_frames store t := by
  have hv : validSet t = validSet s := by unfold validSet; rw [hpt]
  exact {
    free_le := by rw [hf]; exact h.free_le
    valid_card := by rw [hv, hf]; exact h.valid_card
    valid01 := by rw [hpt]; exact h.valid01
    valid255 := by rw [hpt]; exact h.valid255
    counter_iff := by rw [hpt]; exact h.counter_iff
    counter_pos := by rw [hpt]; exact h.counter_pos
    table_char := by rw [hpt]; exact h.table_char
    frame_lt := by rw [hpt, hf]; exact h.frame_lt
    frame_inj := by rw [hpt]; exact h.frame_inj
    frame_mem := by rw [hpt, hm]; exact h.frame_mem }

theorem inv_step_hit (num_frames : Nat) (store : List Nat) (s : State) (a j : Nat)
    (hinv : Inv num_frames store s) (hpage : (decode a).1 ≠ 255)
    (hj : tlbLookup s.tlb (decode a).1 = some j) :
    Inv num_frames store (step num_frames store s a).1 ∧
    (step num_frames store s a).1.pt.valid (decode a).1 = 1 ∧
    (step num_frames store s a).2.physical =
      toUChar ((step num_frames store s a).1.pt.table (decode a).1) * 256 + (decode a).2 := by
  obtain ⟨hj16, hjp, -⟩ := tlbLookup_some hj
  have hok := hinv.tlb_ok j hj16
  rw [hjp] at hok
  obtain ⟨hval, hfr⟩ := hok.resolve_left hpage
  simp only [step, resolve, hj]
  have hcnt := age_cases s.pt.counter (decode a).1
  refine ⟨?_, hval, ?_⟩
  · exact {
      toPtInv := ptInv_touch num_frames store _ _
        (ptInv_congr num_frames store s _ hinv.toPtInv rfl rfl rfl) hval
      index_lt := hinv.index_lt
      tlb_ok := hinv.tlb_ok
      tlb_recent := by
        intro i hi hne
        have hb := hinv.tlb_recent i hi hne
        have hvi := ((hinv.tlb_ok i hi).resolve_left hne).1
        have hmem : (decode a).1 ∈ tlbPages s.tlb := mem_tlbPages.mpr ⟨j, hj16, hjp⟩
        refine le_trans (Finset.card_le_card ?_) hb
        by_cases hp : s.tlb.page i = (decode a).1
        · refine subset_trans ?_ (tlbPages_sub_recent s _)
          have h1 : age (Function.update s.pt.counter (decode a).1 0) (s.tlb.page i) = 1 := by
            rw [age_update, if_pos hp]
          show recent _ (age (Function.update s.pt.counter (decode a).1 0) (s.tlb.page i)) ⊆ _
          rw [h1]
          exact recent_sub_of_eq s _ (decode a).1 hcnt hinv.counter_pos hmem
        · have h1 : age (Function.update s.pt.counter (decode a).1 0) (s.tlb.page i) =
              s.pt.counter (s.tlb.page i) + 1 := by
            rw [age_update, if_neg hp, if_pos ((hinv.counter_iff _).mp hvi)]
          refine subset_trans (recent_sub_of_ne s _ (decode a).1 (s.tlb.page i) hcnt ?_ h1) ?_
          · exact Finset.subset_insert _ _
          · exact Finset.insert_subset (tlbPages_sub_recent s _ hmem) (subset_refl _) }
  · show toUChar (s.tlb.frame j : Int) * 256 + (decode a).2 = _
    rw [hfr, toUChar_natCast _ (toUChar_lt _)]
    rfl

theorem inv_miss (num_frames : Nat) (store : List Nat) (s t : State) (r : Nat)
    (hinv : Inv num_frames store s) (hmiss : ∀ i, i < 16 → s.tlb.page i ≠ r)
    (htlb : t.tlb = tlbInsert s.tlb r (toUChar (t.pt.table r)))
    (hpt : PtInv num_frames store t)
    (hvr : t.pt.valid r = 1)
    (hslots : ∀ i, i < 16 → s.tlb.page i ≠ 255 →
      t.pt.valid (s.tlb.page i) = 1 ∧ t.pt.table (s.tlb.page i) = s.pt.table (s.tlb.page i))
    (hc : ∀ q, q ≠ r → -1 < t.pt.counter q →
      -1 < s.pt.counter q ∧ t.pt.counter q = s.pt.counter q + 1)
    (hcr : t.pt.counter r = 1) :
    Inv num_frames store t := by
  have hidx := hinv.index_lt
  have hsub : tlbPages t.tlb ⊆ insert r (tlbPages s.tlb) := by
    rw [htlb]; exact tlbPages_insert _ _ _
  have hpage : ∀ i, t.tlb.page i = if i = s.tlb.index then r else s.tlb.page i := by
    intro i; rw [htlb]; simp [tlbInsert, Function.update_apply]
  have hframe : ∀ i, t.tlb.frame i =
      if i = s.tlb.index then toUChar (t.pt.table r) else s.tlb.frame i := by
    intro i; rw [htlb]; simp [tlbInsert, Function.update_apply]
  have hindex : t.tlb.index = (s.tlb.index + 1) % 16 := by
    rw [htlb]; rfl
  have hrmem : r ∈ tlbPages t.tlb :=
    mem_tlbPages.mpr ⟨s.tlb.index, hidx, by rw [hpage, if_pos rfl]⟩
  refine { toPtInv := hpt, index_lt := ?_, tlb_ok := ?_, tlb_recent := ?_ }
  · rw [hindex]; omega
  · intro i hi
    rw [hpage, hframe]
    by_cases hik : i = s.tlb.index
    · rw [if_pos hik, if_pos hik]
      exact Or.inr ⟨hvr, rfl⟩
    · rw [if_neg hik, if_neg hik]
      rcases hinv.tlb_ok i hi with h | ⟨_, h2⟩
      · exact Or.inl h
      · by_cases h255 : s.tlb.page i = 255
        · exact Or.inl h255
        · obtain ⟨h3, h4⟩ := hslots i hi h255
          exact Or.inr ⟨h3, by rw [h2, h4]⟩
  · intro i hi
    rw [hpage, hindex]
    by_cases hik : i = s.tlb.index
    · rw [if_pos hik, hcr]
      intro _
      exact le_trans (Finset.card_le_card (recent_sub_of_eq s t r hc hinv.counter_pos hrmem))
        (le_trans (tlbPages_card _) (Nat.le_add_right _ _))
    · rw [if_neg hik]
      intro hne
      have hb := hinv.tlb_recent i hi hne
      have hpr : s.tlb.page i ≠ r := hmiss i hi
      have hv1 := (hslots i hi hne).1
      have hpos : -1 < t.pt.counter (s.tlb.page i) := (hpt.counter_iff (s.tlb.page i)).mp hv1
      have h1 := (hc _ hpr hpos).2
      refine le_trans (Finset.card_le_card
        (recent_sub_of_ne s t r (s.tlb.page i) hc hsub h1)) ?_
      refine le_trans (Finset.card_insert_le _ _) ?_
      omega

theorem writeFrame_same (mem c : Nat → Int) (f i : Nat) (hi : i < 256) :
    writeFrame mem (f : Int) c (f * 256 + i) = c i := by
  unfold writeFrame
  have h1 : (f : Int) * 256 ≤ ((f * 256 + i : Nat) : Int) ∧
      ((f * 256 + i : Nat) : Int) < (f : Int) * 256 + 256 := by
    push_cast; omega
  rw [if_pos h1]
  congr 1
  push_cast; omega

theorem writeFrame_other (mem c : Nat → Int) (f g i : Nat) (hi : i < 256) (hg : g ≠ f) :
    writeFrame mem (f : Int) c (g * 256 + i) = mem (g * 256 + i) := by
  unfold writeFrame
  have h1 : ¬ ((f : Int) * 256 ≤ ((g * 256 + i : Nat) : Int) ∧
      ((g * 256 + i : Nat) : Int) < (f : Int) * 256 + 256) := by
    push_cast; omega
  rw [if_neg h1]

theorem validSet_mem {s : State} {p : Nat} : p ∈ validSet s ↔ p < 256 ∧ s.pt.valid p = 1 := by
  simp [validSet]

theorem ptInv_alloc (num_frames : Nat) (store : List Nat) (s t : State) (r : Nat)
    (h : PtInv num_frames store s) (hr : r < 255) (hv : s.pt.valid r = 0)
    (hff : s.free_frame < num_frames) (hnf : num_frames ≤ 256)
    (e_valid : t.pt.valid = Function.update s.pt.valid r 1)
    (e_table : t.pt.table = Function.update s.pt.table r (toChar s.free_frame))
    (e_cnt : t.pt.counter = age (Function.update s.pt.counter r 0))
    (e_mem : t.main_mem = writeFrame s.main_mem s.free_frame (readPage store r))
    (e_ff : t.free_frame = s.free_frame + 1) :
    PtInv num_frames store t := by
  have hvalid : ∀ p, t.pt.valid p = if p = r then 1 else s.pt.valid p := by
    intro p; rw [e_valid, Function.update_apply]
  have htable : ∀ p, t.pt.table p = if p = r then toChar s.free_frame else s.pt.table p := by
    intro p; rw [e_table, Function.update_apply]
  have hfr : toUChar (toChar (s.free_frame : Int)) = s.free_frame := by
    rw [toUChar_toChar, toUChar_natCast _ (by omega)]
  have hset : validSet t = insert r (validSet s) := by
    ext p
    rw [Finset.mem_insert, validSet_mem, validSet_mem, hvalid]
    by_cases hp : p = r
    · simp [hp]; omega
    · simp [hp]
  have hnot : r ∉ validSet s := by
    rw [validSet_mem, hv]; simp
  refine { free_le := ?_, valid_card := ?_, valid01 := ?_, valid255 := ?_, counter_iff := ?_,
           counter_pos := ?_, table_char := ?_, frame_lt := ?_, frame_inj := ?_, frame_mem := ?_ }
  · omega
  · rw [hset, Finset.card_insert_of_not_mem hnot, h.valid_card, e_ff]
  · intro p; rw [hvalid]; split_ifs
    · exact Or.inr rfl
    · exact h.valid01 p
  · intro p hp; rw [hvalid, if_neg (by omega)]; exact h.valid255 p hp
  · intro p
    rw [hvalid, e_cnt, age_update]
    have h1 := h.counter_iff p
    by_cases hp : p = r
    · simp [hp]
    · simp only [if_neg hp]; rw [h1]; split_ifs <;> omega
  · intro p
    rw [e_cnt, age_update]
    have h1 := h.counter_pos p
    split_ifs <;> omega
  · intro p; rw [hvalid, htable]
    split_ifs
    · intro _; exact toChar_range _
    · exact h.table_char p
  · intro p; rw [hvalid, htable, e_ff]
    split_ifs
    · intro _; rw [hfr]; omega
    · intro hp; have := h.frame_lt p hp; omega
  · intro p q; rw [hvalid, hvalid, htable, htable]
    by_cases hp : p = r <;> by_cases hq : q = r
    · intro _ _ _; rw [hp, hq]
    · simp only [if_pos hp, if_neg hq, hfr]
      intro _ h2 h3; have := h.frame_lt q h2; omega
    · simp only [if_neg hp, if_pos hq, hfr]
      intro h1 _ h3; have := h.frame_lt p h1; omega
    · simp only [if_neg hp, if_neg hq]
      exact h.frame_inj p q
  · intro p; rw [hvalid, htable, e_mem]
    by_cases hp : p = r
    · simp only [if_pos hp, hfr]
      intro _ i hi
      rw [hp]
      exact writeFrame_same _ _ _ _ hi
    · simp only [if_neg hp]
      intro h1 i hi
      have := h.frame_lt p h1
      rw [writeFrame_other _ _ _ _ _ hi (by omega)]
      exact h.frame_mem p h1 i hi

theorem victim_valid (num_frames : Nat) (store : List Nat) (s : State)
    (h : PtInv num_frames store s) (hpos : 0 < s.free_frame) :
    s.pt.valid (victim s.pt.counter) = 1 := by
  have hne : (validSet s).Nonempty := by
    rw [← Finset.card_pos, h.valid_card]; exact hpos
  obtain ⟨q, hq⟩ := hne
  obtain ⟨hq1, hq2⟩ := validSet_mem.mp hq
  have h1 := (h.counter_iff q).mp hq2
  have h2 := victim_max s.pt.counter q hq1
  exact (h.counter_iff _).mpr (by omega)

theorem ptInv_evict (num_frames : Nat) (store : List Nat) (s t : State) (r : Nat)
    (h : PtInv num_frames store s) (hr : r < 255) (hv : s.pt.valid r = 0)
    (hfull : s.free_frame = num_frames) (hnf0 : 0 < num_frames) (hnf : num_frames ≤ 128)
    (e_valid : t.pt.valid =
      Function.update (Function.update s.pt.valid r 1) (victim s.pt.counter) 0)
    (e_table : t.pt.table =
      Function.update (Function.update s.pt.table r (toChar (s.pt.table (victim s.pt.counter))))
        (victim s.pt.counter) (-1))
    (e_cnt : t.pt.counter =
      age (Function.update (Function.update s.pt.counter (victim s.pt.counter) (-1)) r 0))
    (e_mem : t.main_mem =
      writeFrame s.main_mem (s.pt.table (victim s.pt.counter)) (readPage store r))
    (e_ff : t.free_frame = s.free_frame) :
    PtInv num_frames store t := by
  have hvv : s.pt.valid (victim s.pt.counter) = 1 :=
    victim_valid num_frames store s h (by omega)
  have hv256 := victim_lt s.pt.counter
  generalize victim s.pt.counter = v at *
  have hvr : v ≠ r := by
    intro e; rw [e, hv] at hvv; omega
  have hrv : r ≠ v := fun e => hvr e.symm
  have hflt := h.frame_lt v hvv
  have hchar := h.table_char v hvv
  have hnat : s.pt.table v = ((toUChar (s.pt.table v) : Nat) : Int) := by
    unfold toUChar at hflt ⊢; omega
  have hfr : toUChar (toChar (s.pt.table v)) = toUChar (s.pt.table v) := toUChar_toChar _
  have hvalid : ∀ p, t.pt.valid p = if p = v then 0 else if p = r then 1 else s.pt.valid p := by
    intro p; rw [e_valid, Function.update_apply, Function.update_apply]
  have htable : ∀ p, t.pt.table p =
      if p = v then -1 else if p = r then toChar (s.pt.table v) else s.pt.table p := by
    intro p; rw [e_table, Function.update_apply, Function.update_apply]
  have hcnt : ∀ p, t.pt.counter p =
      if p = r then 1 else if p = v then -1
      else if -1 < s.pt.counter p then s.pt.counter p + 1 else s.pt.counter p := by
    intro p
    rw [e_cnt, age_update, Function.update_apply]
    by_cases h1 : p = r
    · simp only [if_pos h1]
    · by_cases h2 : p = v
      · simp only [if_neg h1, if_pos h2]; simp
      · simp only [if_neg h1, if_neg h2]
  have hset : validSet t = insert r ((validSet s).erase v) := by
    ext p
    rw [Finset.mem_insert, Finset.mem_erase, validSet_mem, validSet_mem, hvalid]
    by_cases hp : p = r
    · have : p ≠ v := by rw [hp]; exact hrv
      simp only [if_neg this, if_pos hp]
      constructor
      · intro _; exact Or.inl hp
      · intro _; exact ⟨by omega, by simp⟩
    · by_cases hp2 : p = v
      · simp only [if_pos hp2]
        constructor
        · intro h1; omega
        · rintro (h1 | h1)
          · exact absurd h1 hp
          · exact absurd hp2 h1.1
      · simp only [if_neg hp2, if_neg hp]
        constructor
        · intro h1; exact Or.inr ⟨hp2, h1⟩
        · rintro (h1 | h1)
          · exact absurd h1 hp
          · exact h1.2
  have hvmem : v ∈ validSet s := validSet_mem.mpr ⟨hv256, hvv⟩
  have hnot : r ∉ (validSet s).erase v := by
    rw [Finset.mem_erase, validSet_mem, hv]; simp
  have hcard : 0 < (validSet s).card := Finset.card_pos.mpr ⟨v, hvmem⟩
  refine { free_le := ?_, valid_card := ?_, valid01 := ?_, valid255 := ?_, counter_iff := ?_,
           counter_pos := ?_, table_char := ?_, frame_lt := ?_, frame_inj := ?_, frame_mem := ?_ }
  · omega
  · rw [hset, Finset.card_insert_of_not_mem hnot, Finset.card_erase_of_mem hvmem, e_ff,
      ← h.valid_card]
    omega
  · intro p; rw [hvalid]; split_ifs
    · exact Or.inl rfl
    · exact Or.inr rfl
    · exact h.valid01 p
  · intro p hp; rw [hvalid]
    have := h.valid255 p hp
    split_ifs
    · rfl
    · omega
    · exact this
  · intro p
    rw [hvalid, hcnt]
    have h1 := h.counter_iff p
    by_cases hp : p = r
    · have : p ≠ v := by rw [hp]; exact hrv
      simp only [if_neg this, if_pos hp]; simp
    · by_cases hp2 : p = v
      · simp only [if_pos hp2, if_neg hp]; simp
      · simp only [if_neg hp2, if_neg hp]; rw [h1]; split_ifs <;> omega
  · intro p
    rw [hcnt]
    have h1 := h.counter_pos p
    split_ifs <;> omega
  · intro p; rw [hvalid, htable]
    split_ifs
    · intro h1; omega
    · intro _; exact toChar_range _
    · exact h.table_char p
  · intro p; rw [hvalid, htable, e_ff]
    split_ifs
    · intro h1; omega
    · intro _; rw [hfr]; exact hflt
    · exact h.frame_lt p
  · intro p q; rw [hvalid, hvalid, htable, htable]
    by_cases hp : p = v
    · simp only [if_pos hp]; intro h1; omega
    · by_cases hq : q = v
      · simp only [if_pos hq]; intro _ h1; omega
      · simp only [if_neg hp, if_neg hq]
        by_cases hp2 : p = r <;> by_cases hq2 : q = r
        · intro _ _ _; rw [hp2, hq2]
        · simp only [if_pos hp2, if_neg hq2, hfr]
          intro _ h2 h3
          exact absurd (h.frame_inj v q hvv h2 h3) (fun e => hq e.symm)
        · simp only [if_neg hp2, if_pos hq2, hfr]
          intro h1 _ h3
          exact absurd (h.frame_inj p v h1 hvv h3) hp
        · simp only [if_neg hp2, if_neg hq2]
          exact h.frame_inj p q
  · intro p; rw [hvalid, htable, e_mem, hnat]
    by_cases hp : p = v
    · simp only [if_pos hp]; intro h1; omega
    · simp only [if_neg hp]
      by_cases hp2 : p = r
      · simp only [if_pos hp2, toUChar_toChar, toUChar_natCast _ (toUChar_lt _)]
        intro _ i hi
        rw [hp2]
        exact writeFrame_same _ _ _ _ hi
      · simp only [if_neg hp2]
        intro h1 i hi
        have hne : toUChar (s.pt.table p) ≠ toUChar (s.pt.table v) :=
          fun e => hp (h.frame_inj p v h1 hvv e)
        rw [writeFrame_other _ _ _ _ _ hi hne]
        exact h.frame_mem p h1 i hi

theorem victim_not_in_tlb (num_frames : Nat) (store : List Nat) (s : State)
    (hinv : Inv num_frames store s) (hfull : 32 ≤ s.free_frame) (i : Nat) (hi : i < 16) :
    s.tlb.page i ≠ victim s.pt.counter := by
  intro e
  have hvv : s.pt.valid (victim s.pt.counter) = 1 :=
    victim_valid num_frames store s hinv.toPtInv (by omega)
  have hne : s.tlb.page i ≠ 255 := by
    intro e2
    have := hinv.valid255 (victim s.pt.counter) (by omega)
    omega
  have hb := hinv.tlb_recent i hi hne
  have hsub : validSet s ⊆ recent s (s.pt.counter (s.tlb.page i)) := by
    intro q hq
    obtain ⟨hq1, hq2⟩ := validSet_mem.mp hq
    rw [e]
    exact mem_recent.mpr (Or.inl ⟨hq1, (hinv.counter_iff q).mp hq2, victim_max _ q hq1⟩)
  have := Finset.card_le_card hsub
  rw [hinv.valid_card] at this
  omega

theorem validSet_card_le (num_frames : Nat) (store : List Nat) (s : State)
    (h : PtInv num_frames store s) : s.free_frame ≤ 255 := by
  rw [← h.valid_card]
  have hsub : validSet s ⊆ Finset.range 255 := by
    intro q hq
    obtain ⟨_, hq2⟩ := validSet_mem.mp hq
    rw [Finset.mem_range]
    by_contra hge
    have := h.valid255 q (by omega)
    omega
  simpa using Finset.card_le_card hsub

theorem inv_step_miss (num_frames : Nat) (store : List Nat) (s : State) (a : Nat)
    (hnf : num_frames = 128 ∨ num_frames = 256)
    (hinv : Inv num_frames store s) (hpage : (decode a).1 ≠ 255)
    (hj : tlbLookup s.tlb (decode a).1 = none) :
    Inv num_frames store (step num_frames store s a).1 ∧
    (step num_frames store s a).1.pt.valid (decode a).1 = 1 ∧
    (step num_frames store s a).2.physical =
      toUChar ((step num_frames store s a).1.pt.table (decode a).1) * 256 + (decode a).2 := by
  have hmiss := tlbLookup_none.mp hj
  have hr := decode_fst_lt a
  simp only [step, resolve, hj]
  by_cases hv : s.pt.valid (decode a).1 = 0
  · by_cases hff : s.free_frame < num_frames
    · simp only [hv, if_true, pageFault, hff]
      have hvr : Function.update s.pt.valid (decode a).1 1 (decode a).1 = 1 :=
        Function.update_same _ _ _
      refine ⟨?_, hvr, rfl⟩
      refine inv_miss num_frames store s _ (decode a).1 hinv hmiss rfl ?_ hvr ?_ ?_ ?_
      · exact ptInv_alloc num_frames store s _ (decode a).1 hinv.toPtInv (by omega) hv hff
          (by omega) rfl rfl rfl rfl rfl
      · intro i hi hne
        have hpr : s.tlb.page i ≠ (decode a).1 := hmiss i hi
        have hvi := ((hinv.tlb_ok i hi).resolve_left hne).1
        exact ⟨by show Function.update s.pt.valid _ 1 _ = 1
                  rw [Function.update_noteq hpr]; exact hvi,
               by show Function.update s.pt.table _ _ _ = _
                  rw [Function.update_noteq hpr]⟩
      · exact age_cases s.pt.counter (decode a).1
      · show age (Function.update s.pt.counter (decode a).1 0) (decode a).1 = 1
        rw [age_update, if_pos rfl]
    · have hfull : s.free_frame = num_frames := le_antisymm hinv.free_le (by omega)
      have h255 := validSet_card_le num_frames store s hinv.toPtInv
      have hnf128 : num_frames = 128 := by omega
      have hvv : s.pt.valid (victim s.pt.counter) = 1 :=
        victim_valid num_frames store s hinv.toPtInv (by omega)
      have hvne : victim s.pt.counter ≠ (decode a).1 := by
        intro e; rw [e, hv] at hvv; omega
      have hne : (decode a).1 ≠ victim s.pt.counter := fun e => hvne e.symm
      simp only [hv, if_true, pageFault, hff, if_false]
      have hvr : Function.update (Function.update s.pt.valid (decode a).1 1)
          (victim s.pt.counter) 0 (decode a).1 = 1 := by
        rw [Function.update_noteq hne, Function.update_same]
      refine ⟨?_, hvr, rfl⟩
      refine inv_miss num_frames store s _ (decode a).1 hinv hmiss rfl ?_ hvr ?_ ?_ ?_
      · exact ptInv_evict num_frames store s _ (decode a).1 hinv.toPtInv (by omega) hv hfull
          (by omega) (by omega) rfl rfl rfl rfl rfl
      · intro i hi hne255
        have hpr : s.tlb.page i ≠ (decode a).1 := hmiss i hi
        have hpv : s.tlb.page i ≠ victim s.pt.counter :=
          victim_not_in_tlb num_frames store s hinv (by omega) i hi
        have hvi := ((hinv.tlb_ok i hi).resolve_left hne255).1
        exact ⟨by show Function.update (Function.update s.pt.valid _ 1) _ 0 _ = 1
                  rw [Function.update_noteq hpv, Function.update_noteq hpr]; exact hvi,
               by show Function.update (Function.update s.pt.table _ _) _ _ _ = _
                  rw [Function.update_noteq hpv, Function.update_noteq hpr]⟩
      · intro q hq hpos
        change -1 < age (Function.update
          (Function.update s.pt.counter (victim s.pt.counter) (-1)) (decode a).1 0) q at hpos
        show _ ∧ age (Function.update
          (Function.update s.pt.counter (victim s.pt.counter) (-1)) (decode a).1 0) q = _
        obtain ⟨h1, h2⟩ := age_cases _ _ q hq hpos
        rw [h2]
        rw [Function.update_apply] at h1 ⊢
        split_ifs at h1 ⊢ with h3
        · omega
        · exact ⟨h1, rfl⟩
      · show age (Function.update _ (decode a).1 0) (decode a).1 = 1
        rw [age_update, if_pos rfl]
  · have hv1 : s.pt.valid (decode a).1 = 1 := (hinv.valid01 _).resolve_left hv
    simp only [hv, if_false]
    refine ⟨?_, hv1, rfl⟩
    refine inv_miss num_frames store s _ (decode a).1 hinv hmiss rfl ?_ hv1 ?_ ?_ ?_
    · exact ptInv_congr num_frames store (touch s (decode a).1) _
        (ptInv_touch num_frames store s _ hinv.toPtInv hv1) rfl rfl rfl
    · intro i hi hne
      exact ⟨((hinv.tlb_ok i hi).resolve_left hne).1, rfl⟩
    · exact age_cases s.pt.counter (decode a).1
    · show age (Function.update s.pt.counter (decode a).1 0) (decode a).1 = 1
      rw [age_update, if_pos rfl]

theorem inv_step (num_frames : Nat) (store : List Nat) (s : State) (a : Nat)
    (hnf : num_frames = 128 ∨ num_frames = 256)
    (hinv : Inv num_frames store s) (hpage : (decode a).1 ≠ 255) :
    Inv num_frames store (step num_frames store s a).1 ∧
    (step num_frames store s a).1.pt.valid (decode a).1 = 1 ∧
    (step num_frames store s a).2.physical =
      toUChar ((step num_frames store s a).1.pt.table (decode a).1) * 256 + (decode a).2 := by
  cases hj : tlbLookup s.tlb (decode a).1 with
  | none => exact inv_step_miss num_frames store s a hnf hinv hpage hj
  | some j => exact inv_step_hit num_frames store s a j hinv hpage hj

theorem inv_init (num_frames : Nat) (store : List Nat) (mem0 : Nat → Int) :
    Inv num_frames store (init mem0) := by
  have h255 : toUChar (-1) = 255 := by decide
  refine { free_le := Nat.zero_le _, valid_card := ?_, valid01 := fun _ => Or.inl rfl,
           valid255 := fun _ _ => rfl, counter_iff := ?_, counter_pos := ?_,
           table_char := ?_, frame_lt := ?_, frame_inj := ?_, frame_mem := ?_,
           index_lt := Nat.zero_lt_succ _, tlb_ok := fun _ _ => Or.inl h255,
           tlb_recent := fun _ _ h => absurd h255 h }
  · simp [validSet, init]
  · intro p; simp [init]
  · intro p; simp [init]
  · intro p; simp [init]
  · intro p; simp [init]
  · intro p q; simp [init]
  · intro p; simp [init]

theorem inv_final (num_frames : Nat) (store : List Nat)
    (hnf : num_frames = 128 ∨ num_frames = 256) (as : List Nat) :
    ∀ s, Inv num_frames store s → (∀ a ∈ as, (decode a).1 ≠ 255) →
      Inv num_frames store (final num_frames store s as) := by
  induction as with
  | nil => intro s hs _; exact hs
  | cons a as ih =>
    intro s hs hp
    exact ih _ (inv_step num_frames store s a hnf hs (hp a (List.mem_cons_self _ _))).1
      (fun b hb => hp b (List.mem_cons_of_mem _ hb))

/-! ## Runs -/

theorem final_append (num_frames : Nat) (store : List Nat) (as bs : List Nat) :
    ∀ s, final num_frames store s (as ++ bs) =
      final num_frames store (final num_frames store s as) bs := by
  induction as with
  | nil => intro s; rfl
  | cons a as ih => intro s; exact ih _

theorem final_take_succ (num_frames : Nat) (store : List Nat) (s : State) (as : List Nat)
    (k : Nat) (hk : k < as.length) :
    final num_frames store s (as.take (k + 1)) =
      (step num_frames store (final num_frames store s (as.take k)) as[k]).1 := by
  rw [List.take_succ, final_append, List.getElem?_eq_getElem hk]
  rfl

theorem rows_getElem? (num_frames : Nat) (store : List Nat) (as : List Nat) :
    ∀ (s : State) (k : Nat) (hk : k < as.length),
      (rows num_frames store s as)[k]? =
        some (step num_frames store (final num_frames store s (as.take k)) as[k]).2 := by
  induction as with
  | nil => intro s k hk; simp at hk
  | cons a as ih =>
    intro s k hk
    cases k with
    | zero => simp [rows, final]
    | succ k =>
      simp only [rows, List.getElem?_cons_succ, List.take_succ_cons, final,
        List.getElem_cons_succ]
      exact ih _ k (by simpa using hk)

theorem rows_length (num_frames : Nat) (store : List Nat) (as : List Nat) :
    ∀ s, (rows num_frames store s as).length = as.length := by
  induction as with
  | nil => intro s; rfl
  | cons a as ih => intro s; simp [rows, ih]

theorem readPage_of_lt (store : List Nat) (page i : Nat) (h : page * 256 + i < store.length) :
    store[page * 256 + i]? = some store[page * 256 + i] ∧
    readPage store page i = toChar store[page * 256 + i] := by
  unfold readPage
  rw [List.getElem?_eq_getElem h]
  exact ⟨rfl, rfl⟩

theorem readPage_of_ge (store : List Nat) (page i : Nat) (h : store.length ≤ page * 256 + i) :
    readPage store page i = 0 := by
  unfold readPage
  rw [List.getElem?_eq_none h]

theorem step_row (num_frames : Nat) (store : List Nat) (s : State) (a : Nat)
    (hnf : num_frames = 128 ∨ num_frames = 256)
    (hinv : Inv num_frames store s) (hpage : (decode a).1 ≠ 255) :
    (step num_frames store s a).2 =
      { logical := a
        physical := toUChar ((step num_frames store s a).1.pt.table (decode a).1) * 256 +
          (decode a).2
        value := some (readPage store (decode a).1 (decode a).2) } ∧
    toUChar ((step num_frames store s a).1.pt.table (decode a).1) < num_frames ∧
    (step num_frames store s a).1.pt.valid (decode a).1 = 1 ∧
    (∀ i, i < 16 → (step num_frames store s a).1.tlb.page i = (decode a).1 →
      (step num_frames store s a).1.tlb.frame i =
        toUChar ((step num_frames store s a).1.pt.table (decode a).1)) ∧
    (∀ i, i < 256 →
      (step num_frames store s a).1.main_mem
        (toUChar ((step num_frames store s a).1.pt.table (decode a).1) * 256 + i) =
        readPage store (decode a).1 i) := by
  obtain ⟨hi, hv, hp⟩ := inv_step num_frames store s a hnf hinv hpage
  have hlt := lt_of_lt_of_le (hi.frame_lt _ hv) hi.free_le
  have hoff := decode_snd_lt a
  have hval : (step num_frames store s a).2.value =
      if (step num_frames store s a).2.physical < num_frames * 256 then
        some ((step num_frames store s a).1.main_mem (step num_frames store s a).2.physical)
      else none := rfl
  have hlog : (step num_frames store s a).2.logical = a := rfl
  refine ⟨?_, hlt, hv, ?_, hi.frame_mem _ hv⟩
  · have hphys : (step num_frames store s a).2.physical < num_frames * 256 := by
      rw [hp]; omega
    rw [if_pos hphys, hp, hi.frame_mem _ hv _ hoff] at hval
    cases hrow : (step num_frames store s a).2 with
    | mk l p v =>
      rw [hrow] at hval hlog hp
      simp only at hval hlog hp
      rw [hval, hlog, hp]
  · intro i hi16 hpi
    rcases hi.tlb_ok i hi16 with h | ⟨_, h⟩
    · rw [hpi] at h; exact absurd h hpage
    · rw [h, hpi]

/-- C1: for 128 or 256 frames, a store of at least 65536 bytes and a stream in
which no address decodes to page 255, the row of the `k`-th address `L` is
`L, f*256+offset, b` where `b` is the signed store byte at `page*256+offset`
and `f`, a frame of the pool, is the frame the page table and every TLB slot
holding the page give for it after that address, and frame `f` then holds the
256 store bytes of the page. -/
theorem translation_agrees (num_frames : Nat) (store : List Nat) (mem0 : Nat → Int)
    (as : List Nat) (hnf : num_frames = 128 ∨ num_frames = 256)
    (hstore : 65536 ≤ store.length) (hpages : ∀ a ∈ as, (decode a).1 ≠ 255)
    (k : Nat) (hk : k < as.length) :
    ∃ f b : Nat,
      (rows num_frames store (init mem0) as)[k]? =
        some { logical := as[k], physical := f * 256 + (decode as[k]).2,
               value := some (toChar b) } ∧
      store[(decode as[k]).1 * 256 + (decode as[k]).2]? = some b ∧
      f < num_frames ∧
      (final num_frames store (init mem0) (as.take (k + 1))).pt.valid (decode as[k]).1 = 1 ∧
      toUChar ((final num_frames store (init mem0) (as.take (k + 1))).pt.table
        (decode as[k]).1) = f ∧
      (∀ i, i < 16 →
        (final num_frames store (init mem0) (as.take (k + 1))).tlb.page i = (decode as[k]).1 →
        (final num_frames store (init mem0) (as.take (k + 1))).tlb.frame i = f) ∧
      (∀ i, i < 256 → ∃ c : Nat, store[(decode as[k]).1 * 256 + i]? = some c ∧
        (final num_frames store (init mem0) (as.take (k + 1))).main_mem (f * 256 + i) =
          toChar c) := by
  have hpre : Inv num_frames store (final num_frames store (init mem0) (as.take k)) :=
    inv_final num_frames store hnf _ _ (inv_init num_frames store mem0)
      (fun a ha => hpages a (List.mem_of_mem_take ha))
  have hpk : (decode as[k]).1 ≠ 255 := hpages _ (List.getElem_mem hk)
  obtain ⟨h1, h2, h3, h4, h5⟩ := step_row num_frames store _ as[k] hnf hpre hpk
  have hp := decode_fst_lt as[k]
  have ho := decode_snd_lt as[k]
  have hidx : ∀ i, i < 256 → (decode as[k]).1 * 256 + i < store.length := by
    intro i hi; omega
  rw [← final_take_succ num_frames store (init mem0) as k hk] at h2 h3 h4 h5
  have hb := hidx _ ho
  refine ⟨_, store[(decode as[k]).1 * 256 + (decode as[k]).2], ?_,
    (readPage_of_lt store _ _ hb).1, h2, h3, rfl, h4, ?_⟩
  · rw [rows_getElem? num_frames store as (init mem0) k hk, h1,
      (readPage_of_lt store _ _ hb).2,
      ← final_take_succ num_frames store (init mem0) as k hk]
  · intro i hi
    have hc := hidx i hi
    exact ⟨store[(decode as[k]).1 * 256 + i], (readPage_of_lt store _ _ hc).1,
      by rw [h5 i hi, (readPage_of_lt store _ _ hc).2]⟩

/-- Witness of `translation_agrees`: 128 frames, a store of 65536 bytes of
value 200, the stream [768, 4660, 1023], second address. -/
theorem translation_agrees_witness :
    ∃ f b : Nat,
      (rows 128 (List.replicate 65536 200) (init fun _ => 0) [768, 4660, 1023])[1]? =
        some { logical := 4660, physical := f * 256 + (decode 4660).2,
               value := some (toChar b) } ∧
      (List.replicate 65536 200)[(decode 4660).1 * 256 + (decode 4660).2]? = some b ∧
      f < 128 ∧
      (final 128 (List.replicate 65536 200) (init fun _ => 0)
        ([768, 4660, 1023].take 2)).pt.valid (decode 4660).1 = 1 ∧
      toUChar ((final 128 (List.replicate 65536 200) (init fun _ => 0)
        ([768, 4660, 1023].take 2)).pt.table (decode 4660).1) = f ∧
      (∀ i, i < 16 →
        (final 128 (List.replicate 65536 200) (init fun _ => 0)
          ([768, 4660, 1023].take 2)).tlb.page i = (decode 4660).1 →
        (final 128 (List.replicate 65536 200) (init fun _ => 0)
          ([768, 4660, 1023].take 2)).tlb.frame i = f) ∧
      (∀ i, i < 256 → ∃ c : Nat,
        (List.replicate 65536 200)[(decode 4660).1 * 256 + i]? = some c ∧
        (final 128 (List.replicate 65536 200) (init fun _ => 0)
          ([768, 4660, 1023].take 2)).main_mem (f * 256 + i) = toChar c) :=
  translation_agrees 128 (List.replicate 65536 200) (fun _ => 0) [768, 4660, 1023]
    (Or.inl rfl) (by rw [List.length_replicate]) (by decide) 1 (by decide)

/-! ## A run on one page -/

theorem decode_mk (p o : Nat) (hp : p ≤ 255) (ho : o ≤ 255) : decode (p * 256 + o) = (p, o) := by
  rw [decode_eq, Prod.mk.injEq]; omega

theorem tlbLookup_zero (tlb : TLB) (p : Nat) (h : tlb.page 0 = p) : tlbLookup tlb p = some 0 := by
  unfold tlbLookup
  rw [List.find?_range_eq_some]
  refine ⟨by simpa using h, by simp, ?_⟩
  intro j hj; omega

theorem step_tlbHit (num_frames : Nat) (store : List Nat) (s : State) (a j : Nat)
    (h : tlbLookup s.tlb (decode a).1 = some j) :
    step num_frames store s a =
      (touch { s with count := s.count + 1, hits := s.hits + 1 } (decode a).1,
       { logical := a
         physical := toUChar (s.tlb.frame j) * 256 + (decode a).2
         value :=
          if toUChar (s.tlb.frame j) * 256 + (decode a).2 < num_frames * 256 then
            some (s.main_mem (toUChar (s.tlb.frame j) * 256 + (decode a).2))
          else none }) := by
  simp only [step, resolve, h]
  rfl

theorem step_tableHit (num_frames : Nat) (store : List Nat) (s : State) (a : Nat)
    (h1 : tlbLookup s.tlb (decode a).1 = none) (h2 : s.pt.valid (decode a).1 ≠ 0) :
    step num_frames store s a =
      (touch { s with
          count := s.count + 1
          tlb := tlbInsert s.tlb (decode a).1 (toUChar (s.pt.table (decode a).1)) } (decode a).1,
       { logical := a
         physical := toUChar (s.pt.table (decode a).1) * 256 + (decode a).2
         value :=
          if toUChar (s.pt.table (decode a).1) * 256 + (decode a).2 < num_frames * 256 then
            some (s.main_mem (toUChar (s.pt.table (decode a).1) * 256 + (decode a).2))
          else none }) := by
  simp only [step, resolve, h1, h2, if_false]
  rfl

theorem step_faultAlloc (num_frames : Nat) (store : List Nat) (s : State) (a : Nat)
    (h1 : tlbLookup s.tlb (decode a).1 = none) (h2 : s.pt.valid (decode a).1 = 0)
    (h3 : s.free_frame < num_frames) :
    step num_frames store s a =
      (touch { s with
          count := s.count + 1
          page_fault := s.page_fault + 1
          main_mem := writeFrame s.main_mem s.free_frame (readPage store (decode a).1)
          pt := { s.pt with
            table := Function.update s.pt.table (decode a).1 (toChar s.free_frame)
            valid := Function.update s.pt.valid (decode a).1 1 }
          free_frame := s.free_frame + 1
          tlb := tlbInsert s.tlb (decode a).1 (toUChar (toChar s.free_frame)) } (decode a).1,
       { logical := a
         physical := toUChar (toChar s.free_frame) * 256 + (decode a).2
         value :=
          if toUChar (toChar s.free_frame) * 256 + (decode a).2 < num_frames * 256 then
            some (writeFrame s.main_mem s.free_frame (readPage store (decode a).1)
              (toUChar (toChar s.free_frame) * 256 + (decode a).2))
          else none }) := by
  simp only [step, resolve, h1]
  simp only [h2, if_true, pageFault, h3]
  simp only [touch, Function.update_same]

theorem step_faultEvict (num_frames : Nat) (store : List Nat) (s : State) (a : Nat)
    (h1 : tlbLookup s.tlb (decode a).1 = none) (h2 : s.pt.valid (decode a).1 = 0)
    (h3 : ¬ s.free_frame < num_frames) :
    step num_frames store s a =
      (touch { s with
          count := s.count + 1
          page_fault := s.page_fault + 1
          main_mem := writeFrame s.main_mem (s.pt.table (victim s.pt.counter))
            (readPage store (decode a).1)
          pt := {
            table := Function.update (Function.update s.pt.table (decode a).1
              (toChar (s.pt.table (victim s.pt.counter)))) (victim s.pt.counter) (-1)
            valid := Function.update (Function.update s.pt.valid (decode a).1 1)
              (victim s.pt.counter) 0
            counter := Function.update s.pt.counter (victim s.pt.counter) (-1) }
          tlb := tlbInsert s.tlb (decode a).1
            (toUChar (Function.update (Function.update s.pt.table (decode a).1
              (toChar (s.pt.table (victim s.pt.counter)))) (victim s.pt.counter) (-1)
              (decode a).1)) } (decode a).1,
       { logical := a
         physical := toUChar (Function.update (Function.update s.pt.table (decode a).1
              (toChar (s.pt.table (victim s.pt.counter)))) (victim s.pt.counter) (-1)
              (decode a).1) * 256 + (decode a).2
         value :=
          if toUChar (Function.update (Function.update s.pt.table (decode a).1
              (toChar (s.pt.table (victim s.pt.counter)))) (victim s.pt.counter) (-1)
              (decode a).1) * 256 + (decode a).2 < num_frames * 256 then
            some (writeFrame s.main_mem (s.pt.table (victim s.pt.counter))
              (readPage store (decode a).1)
              (toUChar (Function.update (Function.update s.pt.table (decode a).1
                (toChar (s.pt.table (victim s.pt.counter)))) (victim s.pt.counter) (-1)
                (decode a).1) * 256 + (decode a).2))
          else none }) := by
  simp only [step, resolve, h1]
  simp only [h2, if_true, pageFault, h3, if_false]
  rfl

theorem onePage_first (num_frames : Nat) (store : List Nat) (mem0 : Nat → Int) (p o : Nat)
    (hnf : 0 < num_frames) (hp : p ≤ 254) (ho : o ≤ 255) :
    path num_frames (init mem0) (p * 256 + o) = Path.faultAlloc ∧
    (step num_frames store (init mem0) (p * 256 + o)).2 =
      { logical := p * 256 + o, physical := 0 * 256 + o, value := some (readPage store p o) } ∧
    OnePage store p 1 (step num_frames store (init mem0) (p * 256 + o)).1 := by
  have h255 : toUChar (-1) = 255 := by decide
  have hd := decode_mk p o (by omega) ho
  have hnone : tlbLookup (init mem0).tlb (decode (p * 256 + o)).1 = none := by
    rw [tlbLookup_none, hd]; intro i _
    show toUChar (-1) ≠ p
    omega
  have hv : (init mem0).pt.valid (decode (p * 256 + o)).1 = 0 := rfl
  have hf : (init mem0).free_frame < num_frames := hnf
  have hfr : toUChar (toChar ((0 : Nat) : Int)) = 0 := by decide
  have hw : ∀ i, i < 256 →
      writeFrame mem0 ((0 : Nat) : Int) (readPage store p) i = readPage store p i := by
    intro i hi
    have := writeFrame_same mem0 (readPage store p) 0 i hi
    rw [Nat.zero_mul, Nat.zero_add] at this
    exact this
  have hlt : 0 * 256 + o < num_frames * 256 := by omega
  have hs := step_faultAlloc num_frames store (init mem0) (p * 256 + o) hnone hv hf
  refine ⟨?_, ?_, ?_⟩
  · unfold path
    rw [hnone, if_pos hv, if_pos hf]
  · rw [hs]
    simp only [init, hd, hfr, if_pos hlt, Row.mk.injEq, true_and, Option.some.injEq]
    rw [Nat.zero_mul, Nat.zero_add]
    exact hw o (by omega)
  · rw [hs]
    refine { slot_page := ?_, slot_frame := ?_, frame_zero := ?_, faults := ?_, hits := ?_,
             count := ?_ }
    · simp only [touch, init, tlbInsert, hd, Function.update_same]
    · simp only [touch, init, tlbInsert, hd, Function.update_same, hfr]
    · simp only [touch, init, hd]
      exact hw
    · simp only [touch, init]
    · simp only [touch, init]
    · simp only [touch, init]

theorem onePage_next (num_frames : Nat) (store : List Nat) (t : State) (p o k : Nat)
    (hnf : 0 < num_frames) (hp : p ≤ 254) (ho : o ≤ 255) (h : OnePage store p k t) :
    path num_frames t (p * 256 + o) = Path.tlbHit ∧
    (step num_frames store t (p * 256 + o)).2 =
      { logical := p * 256 + o, physical := 0 * 256 + o, value := some (readPage store p o) } ∧
    OnePage store p (k + 1) (step num_frames store t (p * 256 + o)).1 := by
  have hd := decode_mk p o (by omega) ho
  have hl : tlbLookup t.tlb (decode (p * 256 + o)).1 = some 0 := by
    rw [hd]; exact tlbLookup_zero t.tlb p h.slot_page
  have hu0 : toUChar ((0 : Nat) : Int) = 0 := by decide
  have hlt : 0 * 256 + o < num_frames * 256 := by omega
  have hs := step_tlbHit num_frames store t (p * 256 + o) 0 hl
  rw [h.slot_frame, hu0, hd, if_pos hlt] at hs
  simp only at hs
  refine ⟨?_, ?_, ?_⟩
  · unfold path
    rw [hl]
  · rw [hs]
    simp only [Row.mk.injEq, true_and, Option.some.injEq]
    have := h.frame_zero o (by omega)
    rw [Nat.zero_mul, Nat.zero_add]
    exact this
  · rw [hs]
    exact {
      slot_page := h.slot_page
      slot_frame := h.slot_frame
      frame_zero := h.frame_zero
      faults := h.faults
      hits := by show t.hits + 1 + 1 = k + 1; rw [h.hits]
      count := by show t.count + 1 = k + 1; rw [h.count] }

theorem onePage_upto (num_frames : Nat) (store : List Nat) (mem0 : Nat → Int) (p : Nat)
    (os : List Nat) (hnf : 0 < num_frames) (hp : p ≤ 254) (hos : ∀ o ∈ os, o ≤ 255) :
    ∀ j, j < os.length →
      OnePage store p (j + 1)
        (final num_frames store (init mem0) ((os.map fun o => p * 256 + o).take (j + 1))) := by
  intro j
  induction j with
  | zero =>
    intro hj
    have hj2 : 0 < (os.map fun o => p * 256 + o).length := by rw [List.length_map]; exact hj
    rw [final_take_succ num_frames store (init mem0) _ 0 hj2, List.getElem_map]
    exact (onePage_first num_frames store mem0 p os[0] hnf hp (hos _ (List.getElem_mem hj))).2.2
  | succ j ih =>
    intro hj
    have hj2 : j + 1 < (os.map fun o => p * 256 + o).length := by
      rw [List.length_map]; exact hj
    rw [final_take_succ num_frames store (init mem0) _ (j + 1) hj2, List.getElem_map]
    exact (onePage_next num_frames store _ p os[j + 1] (j + 1) hnf hp
      (hos _ (List.getElem_mem hj)) (ih (by omega))).2.2

/-- C2: for 128 or 256 frames, a page `p` in 0..254, a non-empty list of
offsets in 0..255 and a store of at least 65536 bytes, the run from the
initial state on the addresses `p*256 + o` prints one row per address,
`p*256+o, 0*256+o, signed store byte at p*256+o`; the first address takes the
allocation branch of the page fault and every later one the TLB hit; after
`j+1` addresses the counters are one fault, `j` hits and `j+1` addresses, so
at the end one fault, `n-1` hits and `n` addresses. -/
theorem single_page_run (num_frames : Nat) (store : List Nat) (mem0 : Nat → Int) (p : Nat)
    (os : List Nat) (hnf : num_frames = 128 ∨ num_frames = 256)
    (hstore : 65536 ≤ store.length) (hp : p ≤ 254) (hne : os ≠ [])
    (hos : ∀ o ∈ os, o ≤ 255) :
    (rows num_frames store (init mem0) (os.map fun o => p * 256 + o)).length = os.length ∧
    (∀ (j : Nat) (hj : j < os.length), ∃ b : Nat,
      store[p * 256 + os[j]]? = some b ∧
      (rows num_frames store (init mem0) (os.map fun o => p * 256 + o))[j]? =
        some { logical := p * 256 + os[j], physical := 0 * 256 + os[j],
               value := some (toChar b) } ∧
      path num_frames
        (final num_frames store (init mem0) ((os.map fun o => p * 256 + o).take j))
        (p * 256 + os[j]) = (if j = 0 then Path.faultAlloc else Path.tlbHit) ∧
      (final num_frames store (init mem0)
        ((os.map fun o => p * 256 + o).take (j + 1))).page_fault = 1 ∧
      (final num_frames store (init mem0)
        ((os.map fun o => p * 256 + o).take (j + 1))).hits = j ∧
      (final num_frames store (init mem0)
        ((os.map fun o => p * 256 + o).take (j + 1))).count = j + 1) ∧
    (final num_frames store (init mem0) (os.map fun o => p * 256 + o)).page_fault = 1 ∧
    (final num_frames store (init mem0) (os.map fun o => p * 256 + o)).hits = os.length - 1 ∧
    (final num_frames store (init mem0) (os.map fun o => p * 256 + o)).count = os.length := by
  have hnf0 : 0 < num_frames := by omega
  have hpre := onePage_upto num_frames store mem0 p os hnf0 hp hos
  have hlen : 0 < os.length := List.length_pos.mpr hne
  refine ⟨by rw [rows_length, List.length_map], ?_, ?_⟩
  · intro j hj
    have hj2 : j < (os.map fun o => p * 256 + o).length := by rw [List.length_map]; exact hj
    have ho := hos _ (List.getElem_mem hj)
    have hidx : p * 256 + os[j] < store.length := by omega
    have hrd := readPage_of_lt store p os[j] hidx
    have hpost := hpre j hj
    have hrow := rows_getElem? num_frames store _ (init mem0) j hj2
    rw [List.getElem_map] at hrow
    refine ⟨store[p * 256 + os[j]], hrd.1, ?_, ?_, hpost.faults, ?_, hpost.count⟩
    · rw [hrow, ← hrd.2]
      cases j with
      | zero => exact congrArg some (onePage_first num_frames store mem0 p _ hnf0 hp ho).2.1
      | succ j =>
        exact congrArg some
          (onePage_next num_frames store _ p _ (j + 1) hnf0 hp ho (hpre j (by omega))).2.1
    · cases j with
      | zero => exact (onePage_first num_frames store mem0 p _ hnf0 hp ho).1
      | succ j =>
        rw [if_neg (Nat.succ_ne_zero j)]
        exact (onePage_next num_frames store _ p _ (j + 1) hnf0 hp ho (hpre j (by omega))).1
    · have := hpost.hits; omega
  · have hlast := hpre (os.length - 1) (by omega)
    have hfull : (os.map fun o => p * 256 + o).take (os.length - 1 + 1) =
        os.map fun o => p * 256 + o := by
      apply List.take_of_length_le
      rw [List.length_map]; omega
    rw [hfull] at hlast
    refine ⟨hlast.faults, ?_, ?_⟩
    · have := hlast.hits; omega
    · have := hlast.count; omega

theorem scenarioStore_length : scenarioStore.length = 65536 := by
  simp only [scenarioStore, List.length_append, List.length_replicate]

theorem scenarioStore_page3 (i : Nat) (hi : i < 256) : scenarioStore[3 * 256 + i]? = some 7 := by
  unfold scenarioStore
  rw [List.getElem?_append_right (by rw [List.length_replicate]; omega), List.length_replicate,
    List.getElem?_append_left (by rw [List.length_replicate]; omega), List.getElem?_replicate,
    if_pos (by omega)]

/-- Witness of `single_page_run`, the scenario of the specification: 128
frames, the store that is zero except for page 3 filled with 7, and the
addresses 768, 769, 1023.  The rows are 768,0,7 / 769,1,7 / 1023,255,7, the
counters one fault, two hits, three addresses, and the rates 100/3 and 200/3
percent, printed as 33.33 and 66.67. -/
theorem single_page_run_witness :
    rows 128 scenarioStore (init fun _ => 0) [768, 769, 1023] =
      [{ logical := 768, physical := 0, value := some 7 },
       { logical := 769, physical := 1, value := some 7 },
       { logical := 1023, physical := 255, value := some 7 }] ∧
    (final 128 scenarioStore (init fun _ => 0) [768, 769, 1023]).page_fault = 1 ∧
    (final 128 scenarioStore (init fun _ => 0) [768, 769, 1023]).hits = 2 ∧
    (final 128 scenarioStore (init fun _ => 0) [768, 769, 1023]).count = 3 ∧
    faultRate (final 128 scenarioStore (init fun _ => 0) [768, 769, 1023]) = 100 / 3 ∧
    twoDecimals (faultRate (final 128 scenarioStore (init fun _ => 0) [768, 769, 1023])) =
      33.33 ∧
    tlbHitRate (final 128 scenarioStore (init fun _ => 0) [768, 769, 1023]) = 200 / 3 ∧
    twoDecimals (tlbHitRate (final 128 scenarioStore (init fun _ => 0) [768, 769, 1023])) =
      66.67 := by
  have h := single_page_run 128 scenarioStore (fun _ => 0) 3 [0, 1, 255] (Or.inl rfl)
    (by rw [scenarioStore_length]) (by decide) (by decide) (by decide)
  have hmap : ([0, 1, 255].map fun o => 3 * 256 + o) = [768, 769, 1023] := by decide
  rw [hmap] at h
  obtain ⟨hlen, hrows, hf, hh, hc⟩ := h
  have h7 : toChar ((7 : Nat) : Int) = 7 := by decide
  have hrow : ∀ (j : Nat) (hj : j < [0, 1, 255].length),
      (rows 128 scenarioStore (init fun _ => 0) [768, 769, 1023])[j]? =
        some { logical := 3 * 256 + [0, 1, 255][j], physical := 0 * 256 + [0, 1, 255][j],
               value := some 7 } := by
    intro j hj
    obtain ⟨b, hb, hr, -⟩ := hrows j hj
    have hlt : [0, 1, 255][j] < 256 := by
      have : ∀ o ∈ [0, 1, 255], o < 256 := by decide
      exact this _ (List.getElem_mem hj)
    rw [scenarioStore_page3 _ hlt] at hb
    have hb7 : b = 7 := (Option.some.inj hb).symm
    rw [hr, hb7, h7]
  refine ⟨?_, hf, hh, hc, ?_, ?_, ?_, ?_⟩
  · apply List.ext_getElem?
    intro n
    match n with
    | 0 => exact hrow 0 (by decide)
    | 1 => exact hrow 1 (by decide)
    | 2 => exact hrow 2 (by decide)
    | n + 3 =>
      rw [List.getElem?_eq_none (by rw [hlen]; simp), List.getElem?_eq_none (by simp)]
  · unfold faultRate; rw [hf, hc]; norm_num
  · unfold twoDecimals faultRate; rw [hf, hc]; norm_num [round_eq, Int.floor_eq_iff]
  · unfold tlbHitRate; rw [hh, hc]; norm_num
  · unfold twoDecimals tlbHitRate; rw [hh, hc]; norm_num [round_eq, Int.floor_eq_iff]

/-! ## The first address on page 255 -/

theorem step_sentinel (num_frames : Nat) (store : List Nat) (mem0 : Nat → Int) :
    step num_frames store (init mem0) 65280 =
      (touch { (init mem0) with count := 1, hits := 1 } 255,
       { logical := 65280
         physical := 65280
         value := if 65280 < num_frames * 256 then some (mem0 65280) else none }) := by
  have hd : decode 65280 = (255, 0) := by decide
  have h255 : toUChar (-1) = 255 := by decide
  have hl : tlbLookup (init mem0).tlb (decode 65280).1 = some 0 := by
    rw [hd]; exact tlbLookup_zero _ 255 h255
  have hfr : toUChar (((init mem0).tlb.frame 0 : Nat) : Int) * 256 + 0 = 65280 := by
    show toUChar ((toUChar (-1) : Nat) : Int) * 256 + 0 = 65280
    decide
  rw [step_tlbHit num_frames store (init mem0) 65280 0 hl, hd]
  simp only
  rw [hfr]
  rfl

/-- C5, evaluated at the failing input: in the initial state the TLB lookup of
page 255 hits in slot 0, so a stream that starts with address 65280 takes a TLB
hit and no page fault (hits = 1, faults = 0 after it). -/
theorem first_address_page255_hits (num_frames : Nat) (store : List Nat) (mem0 : Nat → Int) :
    tlbLookup (init mem0).tlb 255 = some 0 ∧
    path num_frames (init mem0) 65280 = Path.tlbHit ∧
    (step num_frames store (init mem0) 65280).1.hits = 1 ∧
    (step num_frames store (init mem0) 65280).1.page_fault = 0 := by
  have h255 : toUChar (-1) = 255 := by decide
  have hd : decode 65280 = (255, 0) := by decide
  have hl : tlbLookup (init mem0).tlb 255 = some 0 := tlbLookup_zero _ 255 h255
  refine ⟨hl, ?_, ?_, ?_⟩
  · unfold path; rw [hd]; simp only; rw [hl]
  · rw [step_sentinel]; rfl
  · rw [step_sentinel]; rfl

/-- C4, evaluated at the failing input: with 128 frames the pool has 32768
bytes, and the row of a first address 65280 has physical address
255 * 256 + 0 = 65280, outside the pool, so that no byte of the pool is read. -/
theorem first_address_page255_physical (store : List Nat) (mem0 : Nat → Int) :
    (rows 128 store (init mem0) [65280]) =
      [{ logical := 65280, physical := 255 * 256 + 0, value := none }] ∧
    ¬ (255 * 256 + 0 < 128 * 256) := by
  refine ⟨?_, by decide⟩
  show [(step 128 store (init mem0) 65280).2] = _
  rw [step_sentinel]
  rfl

/-- C7, evaluated at the failing input: after the one address 65280 the entry
of page 255 has valid = 0 and table = -1 (no frame) but counter = 1 (present). -/
theorem first_address_page255_counter (num_frames : Nat) (store : List Nat)
    (mem0 : Nat → Int) :
    (final num_frames store (init mem0) [65280]).pt.valid 255 = 0 ∧
    (final num_frames store (init mem0) [65280]).pt.table 255 = -1 ∧
    (final num_frames store (init mem0) [65280]).pt.counter 255 = 1 := by
  show (step num_frames store (init mem0) 65280).1.pt.valid 255 = 0 ∧
    (step num_frames store (init mem0) 65280).1.pt.table 255 = -1 ∧
    (step num_frames store (init mem0) 65280).1.pt.counter 255 = 1
  rw [step_sentinel]
  refine ⟨rfl, rfl, ?_⟩
  show age (Function.update (init mem0).pt.counter 255 0) 255 = 1
  rw [age_update, if_pos rfl]

/-! ## Page 255 first, then more pages than frames -/

theorem fill_zero (num_frames : Nat) (store : List Nat) (mem0 : Nat → Int) :
    Fill 0 (step num_frames store (init mem0) 65280).1 := by
  rw [step_sentinel]
  refine { valid_lt := ?_, counter_top := ?_, counter_le := ?_, table_top := rfl, free := rfl,
           tlb_pages := ?_ }
  · intro q; rfl
  · show age (Function.update (init mem0).pt.counter 255 0) 255 = _
    rw [age_update, if_pos rfl]; rfl
  · intro q hq
    show age (Function.update (init mem0).pt.counter 255 0) q ≤ _
    rw [age_update, if_neg hq]
    show (if (-1 : Int) < -1 then (-1 : Int) + 1 else -1) ≤ _
    decide
  · intro i _
    left
    show toUChar (-1) = 255
    decide

theorem fill_lookup (k : Nat) (s : State) (h : Fill k s) (p : Nat) (hk : k ≤ p) (hp : p < 255) :
    tlbLookup s.tlb p = none := by
  rw [tlbLookup_none]
  intro i hi
  rcases h.tlb_pages i hi with h1 | h1 <;> omega

theorem fill_succ (num_frames : Nat) (store : List Nat) (s : State) (k : Nat)
    (h : Fill k s) (hk : k < num_frames) (hk2 : k < 255) :
    Fill (k + 1) (step num_frames store s (k * 256)).1 := by
  have hd : decode (k * 256) = (k, 0) := by
    have := decode_mk k 0 (by omega) (by omega)
    rwa [Nat.add_zero] at this
  have hl : tlbLookup s.tlb (decode (k * 256)).1 = none := by
    rw [hd]; exact fill_lookup k s h k (le_refl _) hk2
  have hv : s.pt.valid (decode (k * 256)).1 = 0 := by
    rw [hd, h.valid_lt]; simp
  have hf : s.free_frame < num_frames := by rw [h.free]; exact hk
  rw [step_faultAlloc num_frames store s (k * 256) hl hv hf, hd]
  refine { valid_lt := ?_, counter_top := ?_, counter_le := ?_, table_top := ?_, free := ?_,
           tlb_pages := ?_ }
  · intro q
    show Function.update s.pt.valid k 1 q = _
    rw [Function.update_apply, h.valid_lt]
    by_cases hq : q = k
    · rw [if_pos hq, if_pos (by omega)]
    · rw [if_neg hq]
      by_cases hq2 : q < k
      · rw [if_pos hq2, if_pos (by omega)]
      · rw [if_neg hq2, if_neg (by omega)]
  · show age (Function.update s.pt.counter k 0) 255 = _
    rw [age_update, if_neg (by omega), h.counter_top, if_pos (by omega)]
    push_cast; ring
  · intro q hq
    show age (Function.update s.pt.counter k 0) q ≤ _
    rw [age_update]
    have := h.counter_le q hq
    push_cast
    split_ifs <;> omega
  · show Function.update s.pt.table k _ 255 = -1
    rw [Function.update_noteq (by omega)]; exact h.table_top
  · show s.free_frame + 1 = k + 1
    rw [h.free]
  · intro i hi
    show Function.update s.tlb.page s.tlb.index k i = 255 ∨
      Function.update s.tlb.page s.tlb.index k i < k + 1
    rw [Function.update_apply]
    split_ifs
    · right; omega
    · rcases h.tlb_pages i hi with h1 | h1
      · left; exact h1
      · right; omega

theorem fill_upto (num_frames : Nat) (store : List Nat) (mem0 : Nat → Int) :
    ∀ k, k ≤ num_frames → k ≤ 255 →
      Fill k (final num_frames store (init mem0)
        (65280 :: (List.range k).map fun p => p * 256)) := by
  intro k
  induction k with
  | zero => intro _ _; exact fill_zero num_frames store mem0
  | succ k ih =>
    intro h1 h2
    have e : (65280 :: (List.range (k + 1)).map fun p => p * 256) =
        (65280 :: (List.range k).map fun p => p * 256) ++ [k * 256] := by
      rw [List.range_succ, List.map_append]; rfl
    rw [e, final_append]
    exact fill_succ num_frames store _ k (ih (by omega) (by omega)) (by omega) (by omega)

theorem fill_evict (store : List Nat) (s : State) (h : Fill 128 s) :
    path 128 s (128 * 256) = Path.faultEvict ∧
    victim s.pt.counter = 255 ∧
    s.pt.valid (victim s.pt.counter) = 0 ∧
    s.pt.table (victim s.pt.counter) = -1 ∧
    (∀ q, (step 128 store s (128 * 256)).1.pt.valid q = if q < 129 then 1 else 0) ∧
    (step 128 store s (128 * 256)).2 =
      { logical := 128 * 256, physical := 255 * 256 + 0, value := none } := by
  have hd : decode (128 * 256) = (128, 0) := by decide
  have hl : tlbLookup s.tlb (decode (128 * 256)).1 = none := by
    rw [hd]; exact fill_lookup 128 s h 128 (le_refl _) (by decide)
  have hv : s.pt.valid (decode (128 * 256)).1 = 0 := by
    rw [hd, h.valid_lt]; rfl
  have hf : ¬ s.free_frame < 128 := by rw [h.free]; decide
  have hvic : victim s.pt.counter = 255 := by
    by_contra hne
    have h1 := victim_max s.pt.counter 255 (by decide)
    have h2 := h.counter_le _ hne
    have h3 := h.counter_top
    omega
  have hval : s.pt.valid 255 = 0 := by rw [h.valid_lt]; rfl
  refine ⟨?_, hvic, by rw [hvic]; exact hval, by rw [hvic]; exact h.table_top, ?_, ?_⟩
  · unfold path; rw [hl, if_pos hv, if_neg hf]
  · intro q
    rw [step_faultEvict 128 store s (128 * 256) hl hv hf, hd, hvic]
    show Function.update (Function.update s.pt.valid 128 1) 255 0 q = _
    rw [Function.update_apply, Function.update_apply, h.valid_lt]
    by_cases h1 : q = 255
    · rw [if_pos h1, if_neg (by omega)]
    · rw [if_neg h1]
      by_cases h2 : q = 128
      · rw [if_pos h2, if_pos (by omega)]
      · rw [if_neg h2]
        by_cases h3 : q < 128
        · rw [if_pos h3, if_pos (by omega)]
        · rw [if_neg h3, if_neg (by omega)]
  · rw [step_faultEvict 128 store s (128 * 256) hl hv hf, hd, hvic]
    simp only [Row.mk.injEq, true_and]
    have ht : toUChar (Function.update (Function.update s.pt.table 128
        (toChar (s.pt.table 255))) 255 (-1) 128) = 255 := by
      rw [Function.update_noteq (by decide), Function.update_same, h.table_top]
      decide
    rw [ht]
    exact ⟨rfl, rfl⟩

theorem validCount_of_lt (s : State) (n : Nat)
    (h : ∀ q, s.pt.valid q = if q < n then 1 else 0) :
    validCount s = ((List.range 256).filter fun p => decide (p < n)).length := by
  unfold validCount
  congr 1
  apply List.filter_congr
  intro p _
  rw [h]
  by_cases hp : p < n <;> simp [hp]

set_option maxRecDepth 8000 in
theorem range_filter_length :
    ((List.range 256).filter fun p => decide (p < 129)).length = 129 := by
  decide

/-- C6, evaluated at the failing input: with 128 frames, after address 65280
followed by one address on each of the pages 0..128 (130 addresses), 129
page-table entries have valid = 1.  The last page fault runs the eviction scan,
which selects page 255, an entry with valid = 0 and no frame. -/
theorem phantom_victim_valid_count (store : List Nat) (mem0 : Nat → Int) :
    validCount (final 128 store (init mem0) phantomStream) = 129 ∧
    (final 128 store (init mem0) phantomStream).free_frame = 128 ∧
    victim (final 128 store (init mem0)
      (65280 :: (List.range 128).map fun p => p * 256)).pt.counter = 255 ∧
    (final 128 store (init mem0)
      (65280 :: (List.range 128).map fun p => p * 256)).pt.valid 255 = 0 := by
  have hfill := fill_upto 128 store mem0 128 (le_refl _) (by decide)
  have e : phantomStream =
      (65280 :: (List.range 128).map fun p => p * 256) ++ [128 * 256] := by
    unfold phantomStream
    rw [List.range_succ, List.map_append]; rfl
  obtain ⟨_, h2, h3, _, h5, _⟩ := fill_evict store _ hfill
  have hd : decode (128 * 256) = (128, 0) := by decide
  have hl : tlbLookup (final 128 store (init mem0)
      (65280 :: (List.range 128).map fun p => p * 256)).tlb (decode (128 * 256)).1 = none := by
    rw [hd]; exact fill_lookup 128 _ hfill 128 (le_refl _) (by decide)
  have hv : (final 128 store (init mem0)
      (65280 :: (List.range 128).map fun p => p * 256)).pt.valid (decode (128 * 256)).1 = 0 := by
    rw [hd, hfill.valid_lt]; rfl
  have hf : ¬ (final 128 store (init mem0)
      (65280 :: (List.range 128).map fun p => p * 256)).free_frame < 128 := by
    rw [hfill.free]; decide
  rw [h2] at h3
  refine ⟨?_, ?_, h2, h3⟩
  · rw [e, final_append]
    show validCount (step 128 store _ (128 * 256)).1 = 129
    rw [validCount_of_lt _ 129 h5]
    exact range_filter_length
  · rw [e, final_append]
    show (step 128 store _ (128 * 256)).1.free_frame = 128
    rw [step_faultEvict 128 store _ (128 * 256) hl hv hf]
    simp only [touch]
    exact hfill.free

/-! ## Counters -/

theorem step_counters (num_frames : Nat) (store : List Nat) (s : State) (a : Nat) :
    (step num_frames store s a).1.count = s.count + 1 ∧
    (step num_frames store s a).1.hits =
      s.hits + (if path num_frames s a = Path.tlbHit then 1 else 0) ∧
    (step num_frames store s a).1.page_fault =
      s.page_fault + (if path num_frames s a = Path.faultAlloc ∨
        path num_frames s a = Path.faultEvict then 1 else 0) ∧
    (step num_frames store s a).1.free_frame =
      s.free_frame + (if path num_frames s a = Path.faultAlloc then 1 else 0) := by
  cases hl : tlbLookup s.tlb (decode a).1 with
  | some j =>
    have hp : path num_frames s a = Path.tlbHit := by unfold path; rw [hl]
    rw [step_tlbHit num_frames store s a j hl, hp]
    exact ⟨rfl, rfl, rfl, rfl⟩
  | none =>
    by_cases hv : s.pt.valid (decode a).1 = 0
    · by_cases hf : s.free_frame < num_frames
      · have hp : path num_frames s a = Path.faultAlloc := by
          unfold path; rw [hl, if_pos hv, if_pos hf]
        rw [step_faultAlloc num_frames store s a hl hv hf, hp]
        exact ⟨rfl, rfl, rfl, rfl⟩
      · have hp : path num_frames s a = Path.faultEvict := by
          unfold path; rw [hl, if_pos hv, if_neg hf]
        rw [step_faultEvict num_frames store s a hl hv hf, hp]
        exact ⟨rfl, rfl, rfl, rfl⟩
    · have hp : path num_frames s a = Path.tableHit := by
        unfold path; rw [hl, if_neg hv]
      rw [step_tableHit num_frames store s a hl hv, hp]
      exact ⟨rfl, rfl, rfl, rfl⟩

theorem path_faultAlloc_iff (num_frames : Nat) (s : State) (a : Nat) :
    path num_frames s a = Path.faultAlloc ↔
      tlbLookup s.tlb (decode a).1 = none ∧ s.pt.valid (decode a).1 = 0 ∧
        s.free_frame < num_frames := by
  unfold path
  cases hl : tlbLookup s.tlb (decode a).1 with
  | some j => simp
  | none =>
    by_cases hv : s.pt.valid (decode a).1 = 0
    · by_cases hf : s.free_frame < num_frames <;> simp [hv, hf]
    · simp [hv]

theorem path_faultEvict_iff (num_frames : Nat) (s : State) (a : Nat) :
    path num_frames s a = Path.faultEvict ↔
      tlbLookup s.tlb (decode a).1 = none ∧ s.pt.valid (decode a).1 = 0 ∧
        ¬ s.free_frame < num_frames := by
  unfold path
  cases hl : tlbLookup s.tlb (decode a).1 with
  | some j => simp
  | none =>
    by_cases hv : s.pt.valid (decode a).1 = 0
    · by_cases hf : s.free_frame < num_frames <;> simp [hv, hf]
    · simp [hv]

theorem final_counters (num_frames : Nat) (store : List Nat) (as : List Nat) :
    ∀ s, (final num_frames store s as).count = s.count + as.length ∧
      (final num_frames store s as).hits + (final num_frames store s as).page_fault ≤
        s.hits + s.page_fault + as.length ∧
      s.hits ≤ (final num_frames store s as).hits ∧
      s.page_fault ≤ (final num_frames store s as).page_fault := by
  induction as with
  | nil => intro s; exact ⟨rfl, le_refl _, le_refl _, le_refl _⟩
  | cons a as ih =>
    intro s
    obtain ⟨h1, h2, h3, h4⟩ := ih (step num_frames store s a).1
    obtain ⟨c1, c2, c3, _⟩ := step_counters num_frames store s a
    simp only [final, List.length_cons]
    cases hp : path num_frames s a <;> simp [hp] at c2 c3 <;>
      exact ⟨by omega, by omega, by omega, by omega⟩

theorem free_frame_min (num_frames : Nat) (store : List Nat) (as : List Nat) :
    ∀ s, s.free_frame = min s.page_fault num_frames →
      (final num_frames store s as).free_frame =
        min (final num_frames store s as).page_fault num_frames := by
  induction as with
  | nil => intro s h; exact h
  | cons a as ih =>
    intro s h
    apply ih
    obtain ⟨_, _, c3, c4⟩ := step_counters num_frames store s a
    rw [c3, c4]
    cases hp : path num_frames s a with
    | tlbHit => simpa using h
    | tableHit => simpa using h
    | faultAlloc =>
      have := ((path_faultAlloc_iff num_frames s a).mp hp).2.2
      simp only [true_or, if_true]
      omega
    | faultEvict =>
      have := ((path_faultEvict_iff num_frames s a).mp hp).2.2
      simp only [or_true, if_true]
      simp only [reduceCtorEq, if_false]
      omega

/-- C9: every processed address adds one to `count` and at most one to
`hits + page_fault` (a TLB hit leaves `page_fault` unchanged, anything else
leaves `hits` unchanged); after a stream of `n` addresses `count = n`,
`hits + page_fault ≤ count`, `hits ≤ count`, `page_fault ≤ count`, and for
`n > 0` the exact rates `page_fault/count*100` and `hits/count*100` lie in
[0, 100] and sum to at most 100. -/
theorem counters_account (num_frames : Nat) (store : List Nat) (mem0 : Nat → Int)
    (as : List Nat) :
    (∀ (s : State) (a : Nat),
      (step num_frames store s a).1.count = s.count + 1 ∧
      ((step num_frames store s a).1.hits = s.hits + 1 ∧
          (step num_frames store s a).1.page_fault = s.page_fault ∨
        (step num_frames store s a).1.hits = s.hits ∧
          ((step num_frames store s a).1.page_fault = s.page_fault ∨
           (step num_frames store s a).1.page_fault = s.page_fault + 1))) ∧
    (final num_frames store (init mem0) as).count = as.length ∧
    (final num_frames store (init mem0) as).hits +
      (final num_frames store (init mem0) as).page_fault ≤
        (final num_frames store (init mem0) as).count ∧
    (final num_frames store (init mem0) as).hits ≤
      (final num_frames store (init mem0) as).count ∧
    (final num_frames store (init mem0) as).page_fault ≤
      (final num_frames store (init mem0) as).count ∧
    (0 < as.length →
      0 ≤ faultRate (final num_frames store (init mem0) as) ∧
      faultRate (final num_frames store (init mem0) as) ≤ 100 ∧
      0 ≤ tlbHitRate (final num_frames store (init mem0) as) ∧
      tlbHitRate (final num_frames store (init mem0) as) ≤ 100 ∧
      faultRate (final num_frames store (init mem0) as) +
        tlbHitRate (final num_frames store (init mem0) as) ≤ 100) := by
  obtain ⟨h1, h2, -, -⟩ := final_counters num_frames store as (init mem0)
  have e1 : (init mem0).count = 0 := rfl
  have e2 : (init mem0).hits = 0 := rfl
  have e3 : (init mem0).page_fault = 0 := rfl
  rw [e1] at h1
  rw [e2, e3] at h2
  refine ⟨?_, by omega, by omega, by omega, by omega, ?_⟩
  · intro s a
    obtain ⟨c1, c2, c3, -⟩ := step_counters num_frames store s a
    refine ⟨c1, ?_⟩
    cases hp : path num_frames s a <;> simp [hp] at c2 c3
    · exact Or.inl ⟨c2, c3⟩
    · exact Or.inr ⟨c2, Or.inl c3⟩
    · exact Or.inr ⟨c2, Or.inr c3⟩
    · exact Or.inr ⟨c2, Or.inr c3⟩
  · intro hn
    generalize final num_frames store (init mem0) as = t at h1 h2 ⊢
    have hc : (0 : ℚ) < (t.count : ℚ) := by
      have : 0 < t.count := by omega
      exact_mod_cast this
    have hsum : (t.page_fault : ℚ) + (t.hits : ℚ) ≤ (t.count : ℚ) := by
      have : t.page_fault + t.hits ≤ t.count := by omega
      exact_mod_cast this
    have hf0 : (0 : ℚ) ≤ (t.page_fault : ℚ) := Nat.cast_nonneg _
    have hh0 : (0 : ℚ) ≤ (t.hits : ℚ) := Nat.cast_nonneg _
    have hfr : faultRate t = (t.page_fault : ℚ) / (t.count : ℚ) * 100 := by
      unfold faultRate; rw [mul_one]
    have hhr : tlbHitRate t = (t.hits : ℚ) / (t.count : ℚ) * 100 := by
      unfold tlbHitRate; rw [mul_one]
    have hf1 : (t.page_fault : ℚ) / (t.count : ℚ) ≤ 1 := (div_le_one hc).mpr (by linarith)
    have hh1 : (t.hits : ℚ) / (t.count : ℚ) ≤ 1 := (div_le_one hc).mpr (by linarith)
    have hs1 : (t.page_fault : ℚ) / (t.count : ℚ) + (t.hits : ℚ) / (t.count : ℚ) ≤ 1 := by
      rw [← add_div]; exact (div_le_one hc).mpr hsum
    have hf2 : (0 : ℚ) ≤ (t.page_fault : ℚ) / (t.count : ℚ) := div_nonneg hf0 hc.le
    have hh2 : (0 : ℚ) ≤ (t.hits : ℚ) / (t.count : ℚ) := div_nonneg hh0 hc.le
    rw [hfr, hhr]
    refine ⟨by linarith, by linarith, by linarith, by linarith, by linarith⟩

/-- C8: in every state reached from the initial state, `free_frame` equals
`min (page_fault, num_frames)`; a step never decreases it and never takes it
above `num_frames`; a page fault taken when `k < num_frames` faults have
occurred takes the allocation branch and is translated with frame `k`
(physical address `k*256 + offset`), and a page fault taken after
`num_frames` faults takes the eviction branch. -/
theorem allocation_counter (num_frames : Nat) (store : List Nat) (mem0 : Nat → Int)
    (as : List Nat) (hnf : num_frames = 128 ∨ num_frames = 256) :
    (final num_frames store (init mem0) as).free_frame =
      min (final num_frames store (init mem0) as).page_fault num_frames ∧
    (∀ a : Nat,
      (final num_frames store (init mem0) as).free_frame ≤
        (step num_frames store (final num_frames store (init mem0) as) a).1.free_frame ∧
      (step num_frames store (final num_frames store (init mem0) as) a).1.free_frame ≤
        num_frames) ∧
    (∀ a : Nat,
      (path num_frames (final num_frames store (init mem0) as) a = Path.faultAlloc ∨
        path num_frames (final num_frames store (init mem0) as) a = Path.faultEvict) →
      ((final num_frames store (init mem0) as).page_fault < num_frames →
        path num_frames (final num_frames store (init mem0) as) a = Path.faultAlloc ∧
        toUChar ((step num_frames store (final num_frames store (init mem0) as) a).1.pt.table
          (decode a).1) = (final num_frames store (init mem0) as).page_fault ∧
        (step num_frames store (final num_frames store (init mem0) as) a).2.physical =
          (final num_frames store (init mem0) as).page_fault * 256 + (decode a).2) ∧
      (num_frames ≤ (final num_frames store (init mem0) as).page_fault →
        path num_frames (final num_frames store (init mem0) as) a = Path.faultEvict)) := by
  have hmin := free_frame_min num_frames store as (init mem0) (by
    show 0 = min 0 num_frames
    omega)
  generalize final num_frames store (init mem0) as = t at hmin ⊢
  refine ⟨hmin, ?_, ?_⟩
  · intro a
    obtain ⟨-, -, -, c4⟩ := step_counters num_frames store t a
    rw [c4]
    by_cases hp : path num_frames t a = Path.faultAlloc
    · have := ((path_faultAlloc_iff num_frames t a).mp hp).2.2
      rw [if_pos hp]; omega
    · rw [if_neg hp]; omega
  · intro a hfault
    refine ⟨?_, ?_⟩
    · intro hlt
      have hff : t.free_frame = t.page_fault := by omega
      have hf : t.free_frame < num_frames := by omega
      have hp : path num_frames t a = Path.faultAlloc := by
        rcases hfault with h | h
        · exact h
        · exact absurd hf ((path_faultEvict_iff num_frames t a).mp h).2.2
      obtain ⟨h1, h2, -⟩ := (path_faultAlloc_iff num_frames t a).mp hp
      have hu : toUChar (toChar (t.free_frame : Int)) = t.page_fault := by
        rw [toUChar_toChar, toUChar_natCast _ (by omega), hff]
      refine ⟨hp, ?_, ?_⟩
      · rw [step_faultAlloc num_frames store t a h1 h2 hf]
        show toUChar (Function.update t.pt.table (decode a).1 (toChar t.free_frame)
          (decode a).1) = _
        rw [Function.update_same, hu]
      · rw [step_faultAlloc num_frames store t a h1 h2 hf]
        show toUChar (toChar (t.free_frame : Int)) * 256 + (decode a).2 = _
        rw [hu]
    · intro hge
      have hf : ¬ t.free_frame < num_frames := by omega
      rcases hfault with h | h
      · exact absurd ((path_faultAlloc_iff num_frames t a).mp h).2.2 hf
      · exact h

/-- Witness of `allocation_counter`: 128 frames, after the addresses 768 and
769 (one fault), address 1024 faults, takes the allocation branch and is
translated with frame 1. -/
theorem allocation_counter_witness :
    (final 128 [] (init fun _ => 0) [768, 769]).free_frame = 1 ∧
    path 128 (final 128 [] (init fun _ => 0) [768, 769]) 1024 = Path.faultAlloc ∧
    (step 128 [] (final 128 [] (init fun _ => 0) [768, 769]) 1024).2.physical = 1 * 256 + 0 := by
  obtain ⟨h1, -, h3⟩ := allocation_counter 128 [] (fun _ => 0) [768, 769] (Or.inl rfl)
  have hpf : (final 128 [] (init fun _ => 0) [768, 769]).page_fault = 1 := by decide
  have hd : (decode 1024).2 = 0 := by decide
  have hp : path 128 (final 128 [] (init fun _ => 0) [768, 769]) 1024 = Path.faultAlloc := by
    decide
  obtain ⟨h4, -⟩ := h3 1024 (Or.inl hp)
  obtain ⟨h5, -, h7⟩ := h4 (by rw [hpf]; decide)
  rw [hpf] at h1 h7
  rw [hd] at h7
  exact ⟨h1, h5, h7⟩

/-! ## A store shorter than the page read -/

/-- C10 as stated fails: with a store of 100 bytes of value 7, page 0 cannot
supply 256 bytes, yet address 5 is reported with value 7, not 0, and the frame
installed for page 0 holds 7 at offset 5. -/
theorem partial_page_not_zero :
    (List.replicate 100 7).length < 0 * 256 + 256 ∧
    rows 128 (List.replicate 100 7) (init fun _ => 0) [5] =
      [{ logical := 5, physical := 5, value := some 7 }] ∧
    (final 128 (List.replicate 100 7) (init fun _ => 0) [5]).main_mem (0 * 256 + 5) = 7 := by
  decide

/-- C10, amended: for 128 or 256 frames and a stream in which no address
decodes to page 255, every address yields a row and a page fault adds one to
`page_fault` whatever the store holds; after the `k`-th address the frame `f`
of its page holds at each offset the signed store byte where the store has one
and 0 where the store has ended, and the value reported is that byte.  In
particular, when the store ends at or before `page*256` the frame is
zero-filled and the value reported is 0. -/
theorem short_store_reads (num_frames : Nat) (store : List Nat) (mem0 : Nat → Int)
    (as : List Nat) (hnf : num_frames = 128 ∨ num_frames = 256)
    (hpages : ∀ a ∈ as, (decode a).1 ≠ 255) (k : Nat) (hk : k < as.length) :
    (rows num_frames store (init mem0) as).length = as.length ∧
    ((path num_frames (final num_frames store (init mem0) (as.take k)) as[k] = Path.faultAlloc ∨
      path num_frames (final num_frames store (init mem0) (as.take k)) as[k] = Path.faultEvict) →
      (final num_frames store (init mem0) (as.take (k + 1))).page_fault =
        (final num_frames store (init mem0) (as.take k)).page_fault + 1) ∧
    ∃ (f : Nat) (v : Int), f < num_frames ∧
      (rows num_frames store (init mem0) as)[k]? =
        some { logical := as[k], physical := f * 256 + (decode as[k]).2, value := some v } ∧
      (∀ b : Nat, store[(decode as[k]).1 * 256 + (decode as[k]).2]? = some b → v = toChar b) ∧
      (store.length ≤ (decode as[k]).1 * 256 + (decode as[k]).2 → v = 0) ∧
      (∀ i, i < 256 → ∀ b : Nat, store[(decode as[k]).1 * 256 + i]? = some b →
        (final num_frames store (init mem0) (as.take (k + 1))).main_mem (f * 256 + i) =
          toChar b) ∧
      (∀ i, i < 256 → store.length ≤ (decode as[k]).1 * 256 + i →
        (final num_frames store (init mem0) (as.take (k + 1))).main_mem (f * 256 + i) = 0) ∧
      (store.length ≤ (decode as[k]).1 * 256 →
        v = 0 ∧ ∀ i, i < 256 →
          (final num_frames store (init mem0) (as.take (k + 1))).main_mem (f * 256 + i) = 0) := by
  have hpre : Inv num_frames store (final num_frames store (init mem0) (as.take k)) :=
    inv_final num_frames store hnf _ _ (inv_init num_frames store mem0)
      (fun a ha => hpages a (List.mem_of_mem_take ha))
  have hpk : (decode as[k]).1 ≠ 255 := hpages _ (List.getElem_mem hk)
  obtain ⟨h1, h2, -, -, h5⟩ := step_row num_frames store _ as[k] hnf hpre hpk
  have hsucc := final_take_succ num_frames store (init mem0) as k hk
  have hsome : ∀ i (b : Nat), store[(decode as[k]).1 * 256 + i]? = some b →
      readPage store (decode as[k]).1 i = toChar b := by
    intro i b hb
    unfold readPage
    rw [hb]
  refine ⟨rows_length num_frames store as _, ?_, _, readPage store (decode as[k]).1
    (decode as[k]).2, h2, ?_, hsome _, readPage_of_ge store _ _, ?_, ?_, ?_⟩
  · intro hfault
    rw [hsucc, (step_counters num_frames store _ as[k]).2.2.1, if_pos hfault]
  · rw [rows_getElem? num_frames store as (init mem0) k hk, h1]
  · intro i hi b hb
    rw [hsucc, h5 i hi]
    exact hsome i b hb
  · intro i hi hlen
    rw [hsucc, h5 i hi]
    exact readPage_of_ge store _ _ hlen
  · intro hlen
    refine ⟨readPage_of_ge store _ _ (by omega), ?_⟩
    intro i hi
    rw [hsucc, h5 i hi]
    exact readPage_of_ge store _ _ (by omega)

/-- Witness of `short_store_reads`: 128 frames, the empty store, the stream
[768, 769], second address. -/
theorem short_store_reads_witness :
    (rows 128 [] (init fun _ => 0) [768, 769]).length = 2 ∧
    ∃ (f : Nat) (v : Int), f < 128 ∧
      (rows 128 [] (init fun _ => 0) [768, 769])[1]? =
        some { logical := 769, physical := f * 256 + 1, value := some v } ∧
      v = 0 ∧
      ∀ i, i < 256 →
        (final 128 [] (init fun _ => 0) [768, 769]).main_mem (f * 256 + i) = 0 := by
  obtain ⟨h1, -, f, v, h3, h4, -, -, -, -, h9⟩ :=
    short_store_reads 128 [] (fun _ => 0) [768, 769] (Or.inl rfl) (by decide) 1 (by decide)
  exact ⟨h1, f, v, h3, h4, (h9 (Nat.zero_le _)).1, (h9 (Nat.zero_le _)).2⟩


/-! ## One step, field by field -/

theorem path_tlbHit_iff (num_frames : Nat) (s : State) (a : Nat) :
    path num_frames s a = Path.tlbHit ↔ ∃ j, tlbLookup s.tlb (decode a).1 = some j := by
  unfold path
  cases hl : tlbLookup s.tlb (decode a).1 with
  | some j => simp
  | none =>
    by_cases hv : s.pt.valid (decode a).1 = 0
    · by_cases hf : s.free_frame < num_frames <;> simp [hv, hf]
    · simp [hv]

theorem path_tableHit_iff (num_frames : Nat) (s : State) (a : Nat) :
    path num_frames s a = Path.tableHit ↔
      tlbLookup s.tlb (decode a).1 = none ∧ s.pt.valid (decode a).1 ≠ 0 := by
  unfold path
  cases hl : tlbLookup s.tlb (decode a).1 with
  | some j => simp
  | none =>
    by_cases hv : s.pt.valid (decode a).1 = 0
    · by_cases hf : s.free_frame < num_frames <;> simp [hv, hf]
    · simp [hv]

theorem step_counter (num_frames : Nat) (store : List Nat) (s : State) (a q : Nat) :
    (step num_frames store s a).1.pt.counter q =
      if q = (decode a).1 then 1
      else if path num_frames s a = Path.faultEvict ∧ q = victim s.pt.counter then -1
      else if -1 < s.pt.counter q then s.pt.counter q + 1 else s.pt.counter q := by
  cases hp : path num_frames s a with
  | tlbHit =>
    obtain ⟨j, hj⟩ := (path_tlbHit_iff num_frames s a).mp hp
    rw [step_tlbHit num_frames store s a j hj]
    show age (Function.update s.pt.counter (decode a).1 0) q = _
    rw [age_update]
    simp
  | tableHit =>
    obtain ⟨h1, h2⟩ := (path_tableHit_iff num_frames s a).mp hp
    rw [step_tableHit num_frames store s a h1 h2]
    show age (Function.update s.pt.counter (decode a).1 0) q = _
    rw [age_update]
    simp
  | faultAlloc =>
    obtain ⟨h1, h2, h3⟩ := (path_faultAlloc_iff num_frames s a).mp hp
    rw [step_faultAlloc num_frames store s a h1 h2 h3]
    show age (Function.update s.pt.counter (decode a).1 0) q = _
    rw [age_update]
    simp
  | faultEvict =>
    obtain ⟨h1, h2, h3⟩ := (path_faultEvict_iff num_frames s a).mp hp
    rw [step_faultEvict num_frames store s a h1 h2 h3]
    show age (Function.update (Function.update s.pt.counter (victim s.pt.counter) (-1))
      (decode a).1 0) q = _
    rw [age_update, Function.update_apply]
    by_cases hq : q = (decode a).1
    · simp [hq]
    · by_cases hv : q = victim s.pt.counter
      · simp [hq, hv]
      · simp [hq, hv]

theorem step_valid (num_frames : Nat) (store : List Nat) (s : State) (a q : Nat) :
    (step num_frames store s a).1.pt.valid q =
      if path num_frames s a = Path.faultEvict ∧ q = victim s.pt.counter then 0
      else if (path num_frames s a = Path.faultAlloc ∨ path num_frames s a = Path.faultEvict) ∧
        q = (decode a).1 then 1
      else s.pt.valid q := by
  cases hp : path num_frames s a with
  | tlbHit =>
    obtain ⟨j, hj⟩ := (path_tlbHit_iff num_frames s a).mp hp
    rw [step_tlbHit num_frames store s a j hj]
    simp [touch]
  | tableHit =>
    obtain ⟨h1, h2⟩ := (path_tableHit_iff num_frames s a).mp hp
    rw [step_tableHit num_frames store s a h1 h2]
    simp [touch]
  | faultAlloc =>
    obtain ⟨h1, h2, h3⟩ := (path_faultAlloc_iff num_frames s a).mp hp
    rw [step_faultAlloc num_frames store s a h1 h2 h3]
    show Function.update s.pt.valid (decode a).1 1 q = _
    rw [Function.update_apply]
    simp
  | faultEvict =>
    obtain ⟨h1, h2, h3⟩ := (path_faultEvict_iff num_frames s a).mp hp
    rw [step_faultEvict num_frames store s a h1 h2 h3]
    show Function.update (Function.update s.pt.valid (decode a).1 1) (victim s.pt.counter) 0 q = _
    rw [Function.update_apply, Function.update_apply]
    simp

theorem step_table (num_frames : Nat) (store : List Nat) (s : State) (a q : Nat) :
    (step num_frames store s a).1.pt.table q =
      if path num_frames s a = Path.faultEvict ∧ q = victim s.pt.counter then -1
      else if path num_frames s a = Path.faultAlloc ∧ q = (decode a).1 then toChar s.free_frame
      else if path num_frames s a = Path.faultEvict ∧ q = (decode a).1 then
        toChar (s.pt.table (victim s.pt.counter))
      else s.pt.table q := by
  cases hp : path num_frames s a with
  | tlbHit =>
    obtain ⟨j, hj⟩ := (path_tlbHit_iff num_frames s a).mp hp
    rw [step_tlbHit num_frames store s a j hj]
    simp [touch]
  | tableHit =>
    obtain ⟨h1, h2⟩ := (path_tableHit_iff num_frames s a).mp hp
    rw [step_tableHit num_frames store s a h1 h2]
    simp [touch]
  | faultAlloc =>
    obtain ⟨h1, h2, h3⟩ := (path_faultAlloc_iff num_frames s a).mp hp
    rw [step_faultAlloc num_frames store s a h1 h2 h3]
    show Function.update s.pt.table (decode a).1 _ q = _
    rw [Function.update_apply]
    simp
  | faultEvict =>
    obtain ⟨h1, h2, h3⟩ := (path_faultEvict_iff num_frames s a).mp hp
    rw [step_faultEvict num_frames store s a h1 h2 h3]
    show Function.update (Function.update s.pt.table (decode a).1 _) (victim s.pt.counter) _ q = _
    rw [Function.update_apply, Function.update_apply]
    simp

theorem step_tlb (num_frames : Nat) (store : List Nat) (s : State) (a : Nat) :
    (step num_frames store s a).1.tlb =
      if path num_frames s a = Path.tlbHit then s.tlb
      else tlbInsert s.tlb (decode a).1
        (toUChar ((step num_frames store s a).1.pt.table (decode a).1)) := by
  cases hp : path num_frames s a with
  | tlbHit =>
    obtain ⟨j, hj⟩ := (path_tlbHit_iff num_frames s a).mp hp
    rw [step_tlbHit num_frames store s a j hj]
    simp [touch]
  | tableHit =>
    obtain ⟨h1, h2⟩ := (path_tableHit_iff num_frames s a).mp hp
    rw [step_tableHit num_frames store s a h1 h2]
    simp [touch]
  | faultAlloc =>
    obtain ⟨h1, h2, h3⟩ := (path_faultAlloc_iff num_frames s a).mp hp
    rw [step_faultAlloc num_frames store s a h1 h2 h3]
    simp [touch]
  | faultEvict =>
    obtain ⟨h1, h2, h3⟩ := (path_faultEvict_iff num_frames s a).mp hp
    rw [step_faultEvict num_frames store s a h1 h2 h3]
    simp [touch]

/-! ## The invariant of every run -/

theorem step_counter_other (num_frames : Nat) (store : List Nat) (s : State) (a q : Nat)
    (hq : q ≠ (decode a).1) (h : -1 < (step num_frames store s a).1.pt.counter q) :
    -1 < s.pt.counter q ∧
      (step num_frames store s a).1.pt.counter q = s.pt.counter q + 1 := by
  rw [step_counter, if_neg hq] at h ⊢
  split_ifs at h ⊢ with h1 h2
  · omega
  · exact ⟨h2, rfl⟩
  · exact absurd h h2

theorem step_counter_page (num_frames : Nat) (store : List Nat) (s : State) (a : Nat) :
    (step num_frames store s a).1.pt.counter (decode a).1 = 1 := by
  rw [step_counter, if_pos rfl]

theorem ginv_init (mem0 : Nat → Int) : GInv (init mem0) := by
  refine { index_lt := Nat.zero_lt_succ _, counter_pos := fun _ => Or.inl rfl,
           valid01 := fun _ => Or.inl rfl, valid_counter := ?_, valid_card := Nat.zero_le _,
           tlb_recent := ?_ }
  · intro p h
    have : (init mem0).pt.valid p = 0 := rfl
    omega
  · intro i _ h
    have : (init mem0).pt.counter ((init mem0).tlb.page i) = -1 := rfl
    omega

theorem ginv_valid_card (num_frames : Nat) (store : List Nat) (s : State) (a : Nat)
    (h : GInv s) :
    (step num_frames store s a).1.free_frame ≤
      (validSet (step num_frames store s a).1).card := by
  have hP := decode_fst_lt a
  rw [(step_counters num_frames store s a).2.2.2]
  have hcard := h.valid_card
  cases hp : path num_frames s a with
  | tlbHit =>
    have e : validSet (step num_frames store s a).1 = validSet s := by
      ext q; rw [validSet_mem, validSet_mem, step_valid, hp]; simp
    rw [e]; simpa using hcard
  | tableHit =>
    have e : validSet (step num_frames store s a).1 = validSet s := by
      ext q; rw [validSet_mem, validSet_mem, step_valid, hp]; simp
    rw [e]; simpa using hcard
  | faultAlloc =>
    obtain ⟨-, h2, -⟩ := (path_faultAlloc_iff num_frames s a).mp hp
    have e : validSet (step num_frames store s a).1 = insert (decode a).1 (validSet s) := by
      ext q
      rw [Finset.mem_insert, validSet_mem, validSet_mem, step_valid, hp]
      by_cases hq : q = (decode a).1
      · simp [hq]; omega
      · simp [hq]
    have hnot : (decode a).1 ∉ validSet s := by
      rw [validSet_mem, h2]; simp
    rw [e, Finset.card_insert_of_not_mem hnot, if_pos rfl]
    omega
  | faultEvict =>
    obtain ⟨-, h2, -⟩ := (path_faultEvict_iff num_frames s a).mp hp
    have hnot : (decode a).1 ∉ validSet s := by
      rw [validSet_mem, h2]; simp
    simp only [reduceCtorEq, if_false, Nat.add_zero]
    refine le_trans hcard ?_
    by_cases hv : victim s.pt.counter = (decode a).1
    · apply Finset.card_le_card
      intro q hq
      obtain ⟨hq1, hq2⟩ := validSet_mem.mp hq
      have hne : q ≠ (decode a).1 := by
        intro e; rw [e, h2] at hq2; omega
      rw [validSet_mem, step_valid, hp, hv]
      simp [hne, hq1, hq2]
    · have hsub : insert (decode a).1 ((validSet s).erase (victim s.pt.counter)) ⊆
          validSet (step num_frames store s a).1 := by
        intro q hq
        rw [validSet_mem, step_valid, hp]
        rcases Finset.mem_insert.mp hq with hq | hq
        · rw [hq]
          have : (decode a).1 ≠ victim s.pt.counter := fun e => hv e.symm
          simp [this, hP]
        · obtain ⟨hq1, hq2⟩ := Finset.mem_erase.mp hq
          obtain ⟨hq3, hq4⟩ := validSet_mem.mp hq2
          simp [hq1, hq3, hq4]
      have hnot2 : (decode a).1 ∉ (validSet s).erase (victim s.pt.counter) :=
        fun hm => hnot (Finset.mem_of_mem_erase hm)
      have h3 := Finset.card_le_card hsub
      rw [Finset.card_insert_of_not_mem hnot2] at h3
      have h4 : (validSet s).card - 1 ≤ ((validSet s).erase (victim s.pt.counter)).card :=
        Finset.pred_card_le_card_erase
      omega

theorem ginv_step (num_frames : Nat) (store : List Nat) (s : State) (a : Nat) (h : GInv s) :
    GInv (step num_frames store s a).1 := by
  have hc := step_counter_other num_frames store s a
  have hcr := step_counter_page num_frames store s a
  have hpos : ∀ q, -1 < s.pt.counter q → 1 ≤ s.pt.counter q := by
    intro q hq
    rcases h.counter_pos q with h1 | h1 <;> omega
  have hidx := h.index_lt
  refine { index_lt := ?_, counter_pos := ?_, valid01 := ?_, valid_counter := ?_,
           valid_card := ginv_valid_card num_frames store s a h, tlb_recent := ?_ }
  · rw [step_tlb]
    split_ifs
    · exact hidx
    · show (s.tlb.index + 1) % 16 < 16
      omega
  · intro p
    rw [step_counter]
    have := h.counter_pos p
    split_ifs <;> omega
  · intro p
    rw [step_valid]
    split_ifs
    · exact Or.inl rfl
    · exact Or.inr rfl
    · exact h.valid01 p
  · intro p hp
    by_cases hpP : p = (decode a).1
    · rw [hpP, hcr]; decide
    · rw [step_valid] at hp
      rw [step_counter, if_neg hpP]
      by_cases hev : path num_frames s a = Path.faultEvict ∧ p = victim s.pt.counter
      · rw [if_pos hev] at hp; omega
      · have hne : ¬ ((path num_frames s a = Path.faultAlloc ∨
            path num_frames s a = Path.faultEvict) ∧ p = (decode a).1) := fun e => hpP e.2
        rw [if_neg hev, if_neg hne] at hp
        have := h.valid_counter p hp
        rw [if_neg hev, if_pos this]
        omega
  · intro i hi
    by_cases hp : path num_frames s a = Path.tlbHit
    · obtain ⟨j, hj⟩ := (path_tlbHit_iff num_frames s a).mp hp
      obtain ⟨hj16, hjp, -⟩ := tlbLookup_some hj
      have htlb : (step num_frames store s a).1.tlb = s.tlb := by rw [step_tlb, if_pos hp]
      have hmem : (decode a).1 ∈ tlbPages s.tlb := mem_tlbPages.mpr ⟨j, hj16, hjp⟩
      rw [htlb]
      intro hpres
      by_cases hpi : s.tlb.page i = (decode a).1
      · rw [hpi, hcr]
        refine le_trans (Finset.card_le_card
          (recent_sub_of_eq s _ (decode a).1 hc hpos (by rw [htlb]; exact hmem))) ?_
        exact le_trans (tlbPages_card _) (Nat.le_add_right _ _)
      · obtain ⟨h1, h2⟩ := hc _ hpi hpres
        refine le_trans (Finset.card_le_card
          (recent_sub_of_ne s _ (decode a).1 (s.tlb.page i) hc
            (by rw [htlb]; exact Finset.subset_insert _ _) h2)) ?_
        rw [Finset.insert_eq_of_mem (tlbPages_sub_recent s _ hmem)]
        exact h.tlb_recent i hi h1
    · have hmiss : ∀ k, k < 16 → s.tlb.page k ≠ (decode a).1 := by
        apply tlbLookup_none.mp
        cases hl : tlbLookup s.tlb (decode a).1 with
        | none => rfl
        | some j => exact absurd ((path_tlbHit_iff num_frames s a).mpr ⟨j, hl⟩) hp
      have htlb : (step num_frames store s a).1.tlb = tlbInsert s.tlb (decode a).1
          (toUChar ((step num_frames store s a).1.pt.table (decode a).1)) := by
        rw [step_tlb, if_neg hp]
      have hpage : ∀ k, (step num_frames store s a).1.tlb.page k =
          if k = s.tlb.index then (decode a).1 else s.tlb.page k := by
        intro k; rw [htlb]; simp [tlbInsert, Function.update_apply]
      have hindex : (step num_frames store s a).1.tlb.index = (s.tlb.index + 1) % 16 := by
        rw [htlb]; rfl
      have hsub : tlbPages (step num_frames store s a).1.tlb ⊆
          insert (decode a).1 (tlbPages s.tlb) := by
        rw [htlb]; exact tlbPages_insert _ _ _
      have hrmem : (decode a).1 ∈ tlbPages (step num_frames store s a).1.tlb :=
        mem_tlbPages.mpr ⟨s.tlb.index, hidx, by rw [hpage, if_pos rfl]⟩
      rw [hpage, hindex]
      by_cases hik : i = s.tlb.index
      · rw [if_pos hik, hcr]
        intro _
        exact le_trans (Finset.card_le_card
          (recent_sub_of_eq s _ (decode a).1 hc hpos hrmem))
          (le_trans (tlbPages_card _) (Nat.le_add_right _ _))
      · rw [if_neg hik]
        intro hpres
        obtain ⟨h1, h2⟩ := hc _ (hmiss i hi) hpres
        have hb := h.tlb_recent i hi h1
        refine le_trans (Finset.card_le_card
          (recent_sub_of_ne s _ (decode a).1 (s.tlb.page i) hc hsub h2)) ?_
        refine le_trans (Finset.card_insert_le _ _) ?_
        omega

theorem ginv_final (num_frames : Nat) (store : List Nat) (as : List Nat) :
    ∀ s, GInv s → GInv (final num_frames store s as) := by
  induction as with
  | nil => intro s hs; exact hs
  | cons a as ih => intro s hs; exact ih _ (ginv_step num_frames store s a hs)

theorem ginv_victim (num_frames : Nat) (s : State) (h : GInv s)
    (hnf : 0 < num_frames) (hfull : ¬ s.free_frame < num_frames) :
    -1 < s.pt.counter (victim s.pt.counter) := by
  have hcard := h.valid_card
  have hne : (validSet s).Nonempty := by
    rw [← Finset.card_pos]; omega
  obtain ⟨q, hq⟩ := hne
  obtain ⟨hq1, hq2⟩ := validSet_mem.mp hq
  have h1 := h.valid_counter q hq2
  have h2 := victim_max s.pt.counter q hq1
  omega

theorem ginv_victim_not_in_tlb (num_frames : Nat) (s : State) (h : GInv s)
    (hnf : 32 ≤ num_frames) (hfull : ¬ s.free_frame < num_frames) (i : Nat) (hi : i < 16) :
    s.tlb.page i ≠ victim s.pt.counter := by
  intro e
  have hpres : -1 < s.pt.counter (victim s.pt.counter) :=
    ginv_victim num_frames s h (by omega) hfull
  have hb := h.tlb_recent i hi (by rw [e]; exact hpres)
  have hsub : validSet s ⊆ recent s (s.pt.counter (s.tlb.page i)) := by
    intro q hq
    obtain ⟨hq1, hq2⟩ := validSet_mem.mp hq
    rw [e]
    exact mem_recent.mpr (Or.inl ⟨hq1, h.valid_counter q hq2, victim_max _ q hq1⟩)
  have := Finset.card_le_card hsub
  have := h.valid_card
  omega

/-- C15: for every array of counters the eviction scan returns a page below
256 whose counter no page exceeds and which every page with a smaller number
stays strictly below, that is the smallest page holding the maximum; when all
256 counters are equal it returns page 0. -/
theorem victim_leftmost_max (counter : Nat → Int) :
    victim counter < 256 ∧
    (∀ q, q < 256 → counter q ≤ counter (victim counter)) ∧
    (∀ q, q < victim counter → counter q < counter (victim counter)) ∧
    ((∀ q, q < 256 → counter q = counter 0) → victim counter = 0) := by
  refine ⟨victim_lt counter, victim_max counter, victim_first counter, ?_⟩
  intro hall
  by_contra hne
  have h1 := victim_first counter 0 (Nat.pos_of_ne_zero hne)
  have h2 := hall (victim counter) (victim_lt counter)
  omega

/-- C16 as stated fails: after the single address 768, which decodes to page 3,
the counter of page 3 is 1, not 0. -/
theorem touched_counter_not_zero :
    (decode 768).1 = 3 ∧
    (final 128 [] (init fun _ => 0) [768]).pt.counter 3 = 1 ∧
    (final 128 [] (init fun _ => 0) [768]).pt.counter 3 ≠ 0 := by
  decide

/-- C16, amended: at the end of processing any address that decodes to page
`P`, in any state, the counter of `P` is 1: the touch resets it to 0 and the
aging pass that follows increments every counter above -1, the one of the page
just touched included. -/
theorem touched_counter_is_one (num_frames : Nat) (store : List Nat) (s : State) (a : Nat) :
    (touch s (decode a).1).pt.counter (decode a).1 = 1 ∧
    (∀ c : Nat → Int, age (Function.update c (decode a).1 0) (decode a).1 =
      Function.update c (decode a).1 0 (decode a).1 + 1) ∧
    (step num_frames store s a).1.pt.counter (decode a).1 = 1 := by
  refine ⟨?_, ?_, step_counter_page num_frames store s a⟩
  · show age (Function.update s.pt.counter (decode a).1 0) (decode a).1 = 1
    rw [age_update, if_pos rfl]
  · intro c
    rw [age_update, if_pos rfl, Function.update_same]
    rfl

/-- C17: in every state reached from the initial state and for every next
address, on page `P`: a page other than `P` that is valid after the step has
its counter exactly 1 larger than before, and a page other than `P` whose
counter was -1 before the step has counter -1 after it. -/
theorem aging_of_other_pages (num_frames : Nat) (store : List Nat) (mem0 : Nat → Int)
    (as : List Nat) (a : Nat) :
    (∀ q, q ≠ (decode a).1 →
      (step num_frames store (final num_frames store (init mem0) as) a).1.pt.valid q = 1 →
      (step num_frames store (final num_frames store (init mem0) as) a).1.pt.counter q =
        (final num_frames store (init mem0) as).pt.counter q + 1) ∧
    (∀ q, q ≠ (decode a).1 →
      (final num_frames store (init mem0) as).pt.counter q = -1 →
      (step num_frames store (final num_frames store (init mem0) as) a).1.pt.counter q = -1) := by
  have hg : GInv (final num_frames store (init mem0) as) :=
    ginv_final num_frames store as _ (ginv_init mem0)
  have hg1 := ginv_step num_frames store _ a hg
  generalize final num_frames store (init mem0) as = t at hg hg1 ⊢
  refine ⟨?_, ?_⟩
  · intro q hq hv
    exact (step_counter_other num_frames store t a q hq (hg1.valid_counter q hv)).2
  · intro q hq hc
    rw [step_counter, if_neg hq]
    split_ifs with h1 h2
    · rfl
    · omega
    · exact hc

/-! ## Counters as ages -/

theorem lastAccess_snoc_same (as : List Nat) (a : Nat) :
    LastAccess (as ++ [a]) (decode a).1 as.length := by
  refine ⟨⟨a, by simp, rfl⟩, ?_⟩
  intro k b hk hb
  have : (as ++ [a])[k]? = none := by
    apply List.getElem?_eq_none
    simp; omega
  rw [this] at hb
  exact absurd hb (by simp)

theorem lastAccess_snoc_other (as : List Nat) (a p j : Nat) (hp : p ≠ (decode a).1)
    (h : LastAccess as p j) : LastAccess (as ++ [a]) p j := by
  obtain ⟨⟨b, hb, hbp⟩, hlater⟩ := h
  have hj : j < as.length := by
    by_contra hge
    rw [List.getElem?_eq_none (by omega)] at hb
    exact absurd hb (by simp)
  refine ⟨⟨b, by rw [List.getElem?_append_left hj]; exact hb, hbp⟩, ?_⟩
  intro k c hk hc
  by_cases hkl : k < as.length
  · rw [List.getElem?_append_left hkl] at hc
    exact hlater k c hk hc
  · rw [List.getElem?_append_right (by omega)] at hc
    by_cases hk0 : k - as.length = 0
    · rw [hk0] at hc
      simp at hc
      rw [← hc]
      exact fun e => hp e.symm
    · have : [a][k - as.length]? = none := by
        apply List.getElem?_eq_none
        simp; omega
      rw [this] at hc
      exact absurd hc (by simp)

theorem lastAccess_lt (as : List Nat) (p j : Nat) (h : LastAccess as p j) :
    j < as.length ∧ p < 256 := by
  obtain ⟨⟨b, hb, hbp⟩, -⟩ := h
  refine ⟨?_, by rw [← hbp]; exact decode_fst_lt b⟩
  by_contra hge
  rw [List.getElem?_eq_none (by omega)] at hb
  exact absurd hb (by simp)

theorem lastAccess_unique (as : List Nat) (p q j : Nat) (hp : LastAccess as p j)
    (hq : LastAccess as q j) : p = q := by
  obtain ⟨⟨b, hb, hbp⟩, -⟩ := hp
  obtain ⟨⟨c, hc, hcq⟩, -⟩ := hq
  rw [hb] at hc
  have : b = c := Option.some.inj hc
  rw [← hbp, ← hcq, this]

theorem counter_last (num_frames : Nat) (store : List Nat) (mem0 : Nat → Int) (as : List Nat) :
    ∀ p, -1 < (final num_frames store (init mem0) as).pt.counter p →
      ∃ j, LastAccess as p j ∧
        (final num_frames store (init mem0) as).pt.counter p = (as.length : Int) - (j : Int) := by
  induction as using List.reverseRecOn with
  | nil =>
    intro p hp
    have hp2 : (-1 : Int) < -1 := hp
    exact absurd hp2 (by decide)
  | append_singleton as a ih =>
    intro p hp
    rw [final_append] at hp ⊢
    change -1 < (step num_frames store (final num_frames store (init mem0) as) a).1.pt.counter p
      at hp
    show ∃ j, LastAccess (as ++ [a]) p j ∧
      (step num_frames store (final num_frames store (init mem0) as) a).1.pt.counter p = _
    by_cases hpa : p = (decode a).1
    · refine ⟨as.length, by rw [hpa]; exact lastAccess_snoc_same as a, ?_⟩
      rw [hpa, step_counter_page, List.length_append]
      simp
    · obtain ⟨h1, h2⟩ := step_counter_other num_frames store _ a p hpa hp
      obtain ⟨j, hj, hc⟩ := ih p h1
      refine ⟨j, lastAccess_snoc_other as a p j hpa hj, ?_⟩
      rw [h2, hc, List.length_append]
      simp
      ring

/-- C14: after the `n` addresses of a stream, a page whose counter is not -1
has counter `n - j`, where `j` is the position of the most recent address that
decodes to it; and when the next address takes the eviction branch, the victim
has its counter present and its most recent access lies before that of every
other page whose counter is present. -/
theorem counter_is_age (num_frames : Nat) (store : List Nat) (mem0 : Nat → Int)
    (as : List Nat) (a : Nat) (hnf : num_frames = 128 ∨ num_frames = 256) :
    (∀ p, (final num_frames store (init mem0) as).pt.counter p ≠ -1 →
      ∃ j, LastAccess as p j ∧
        (final num_frames store (init mem0) as).pt.counter p =
          (as.length : Int) - (j : Int)) ∧
    (path num_frames (final num_frames store (init mem0) as) a = Path.faultEvict →
      ∃ jv, LastAccess as (victim (final num_frames store (init mem0) as).pt.counter) jv ∧
        (final num_frames store (init mem0) as).pt.counter
          (victim (final num_frames store (init mem0) as).pt.counter) =
            (as.length : Int) - (jv : Int) ∧
        ∀ q jq, q ≠ victim (final num_frames store (init mem0) as).pt.counter →
          (final num_frames store (init mem0) as).pt.counter q ≠ -1 →
          LastAccess as q jq → jv < jq) := by
  have hg : GInv (final num_frames store (init mem0) as) :=
    ginv_final num_frames store as _ (ginv_init mem0)
  have hlast := counter_last num_frames store mem0 as
  have hpres : ∀ p, (final num_frames store (init mem0) as).pt.counter p ≠ -1 →
      -1 < (final num_frames store (init mem0) as).pt.counter p := by
    intro p hp
    rcases hg.counter_pos p with h | h
    · exact absurd h hp
    · omega
  refine ⟨fun p hp => hlast p (hpres p hp), ?_⟩
  intro hev
  have hfull := ((path_faultEvict_iff num_frames _ a).mp hev).2.2
  have hv := ginv_victim num_frames _ hg (by omega) hfull
  obtain ⟨jv, hjv, hcv⟩ := hlast _ hv
  refine ⟨jv, hjv, hcv, ?_⟩
  intro q jq hq hqc hjq
  obtain ⟨jq2, hjq2, hcq⟩ := hlast q (hpres q hqc)
  have hlt := lastAccess_lt as q jq hjq
  have hmax := victim_max (final num_frames store (init mem0) as).pt.counter q hlt.2
  have hsame : jq2 = jq := by
    obtain ⟨⟨b, hb, hbp⟩, hl1⟩ := hjq
    obtain ⟨⟨c, hc, hcp⟩, hl2⟩ := hjq2
    rcases Nat.lt_trichotomy jq2 jq with h | h | h
    · exact absurd hbp (hl2 jq b h hb)
    · exact h
    · exact absurd hcp (hl1 jq2 c h hc)
  rw [hsame] at hcq hjq2
  have hne : jv ≠ jq := by
    intro e
    rw [e] at hjv
    exact hq (lastAccess_unique as q _ jq hjq2 hjv)
  have := lastAccess_lt as _ jv hjv
  omega

/-- Witness of `counter_is_age`: 128 frames, the stream 65280 followed by one
address on each of the pages 0..127, and next address 32768, which takes the
eviction branch. -/
theorem counter_is_age_witness :
    ∃ jv, LastAccess (65280 :: (List.range 128).map fun p => p * 256)
        (victim (final 128 [] (init fun _ => 0)
          (65280 :: (List.range 128).map fun p => p * 256)).pt.counter) jv ∧
      (final 128 [] (init fun _ => 0)
        (65280 :: (List.range 128).map fun p => p * 256)).pt.counter
          (victim (final 128 [] (init fun _ => 0)
            (65280 :: (List.range 128).map fun p => p * 256)).pt.counter) =
        ((65280 :: (List.range 128).map fun p => p * 256).length : Int) - (jv : Int) ∧
      ∀ q jq, q ≠ victim (final 128 [] (init fun _ => 0)
          (65280 :: (List.range 128).map fun p => p * 256)).pt.counter →
        (final 128 [] (init fun _ => 0)
          (65280 :: (List.range 128).map fun p => p * 256)).pt.counter q ≠ -1 →
        LastAccess (65280 :: (List.range 128).map fun p => p * 256) q jq → jv < jq :=
  (counter_is_age 128 [] (fun _ => 0) (65280 :: (List.range 128).map fun p => p * 256)
    (128 * 256) (Or.inl rfl)).2
    (fill_evict [] _ (fill_upto 128 [] (fun _ => 0) 128 (le_refl _) (by decide))).1

/-! ## The TLB as a FIFO ring -/

theorem path_ne_tlbHit (num_frames : Nat) (s : State) (a : Nat)
    (h : path num_frames s a ≠ Path.tlbHit) :
    ∀ i, i < 16 → s.tlb.page i ≠ (decode a).1 := by
  apply tlbLookup_none.mp
  cases hl : tlbLookup s.tlb (decode a).1 with
  | none => rfl
  | some j => exact absurd ((path_tlbHit_iff num_frames s a).mpr ⟨j, hl⟩) h

theorem step_tlb_miss (num_frames : Nat) (store : List Nat) (s : State) (a : Nat)
    (h : path num_frames s a ≠ Path.tlbHit) :
    (step num_frames store s a).1.tlb.page = Function.update s.tlb.page s.tlb.index (decode a).1 ∧
    (step num_frames store s a).1.tlb.frame = Function.update s.tlb.frame s.tlb.index
      (toUChar ((step num_frames store s a).1.pt.table (decode a).1)) ∧
    (step num_frames store s a).1.tlb.index = (s.tlb.index + 1) % 16 := by
  have e := step_tlb num_frames store s a
  rw [if_neg h] at e
  rw [e]
  exact ⟨rfl, rfl, rfl⟩

theorem step_inserts (num_frames : Nat) (store : List Nat) (s : State) (a : Nat) :
    (step num_frames store s a).1.count + s.hits =
      (step num_frames store s a).1.hits + s.count +
        (if path num_frames s a = Path.tlbHit then 0 else 1) := by
  obtain ⟨c1, c2, -, -⟩ := step_counters num_frames store s a
  rw [c1, c2]
  split_ifs <;> omega

theorem ring_init (mem0 : Nat → Int) : Ring (init mem0) := by
  refine { hits_le := Nat.le_refl _, index_eq := rfl, fresh := ?_, distinct := ?_ }
  · intro i _ _
    show toUChar (-1) = 255
    decide
  · intro i j _ _ _ _
    exact ⟨Nat.zero_le _, Nat.zero_le _⟩

theorem ring_step (num_frames : Nat) (store : List Nat) (s : State) (a : Nat) (h : Ring s) :
    Ring (step num_frames store s a).1 := by
  have hins := step_inserts num_frames store s a
  have hle := h.hits_le
  have hidx := h.index_eq
  by_cases hp : path num_frames s a = Path.tlbHit
  · have htlb : (step num_frames store s a).1.tlb = s.tlb := by rw [step_tlb, if_pos hp]
    rw [if_pos hp] at hins
    have e : (step num_frames store s a).1.count - (step num_frames store s a).1.hits =
        s.count - s.hits := by omega
    refine { hits_le := by omega, index_eq := ?_, fresh := ?_, distinct := ?_ }
    · rw [htlb, e]; exact hidx
    · rw [htlb, e]; exact h.fresh
    · rw [htlb, e]; exact h.distinct
  · obtain ⟨e1, -, e3⟩ := step_tlb_miss num_frames store s a hp
    have hmiss := path_ne_tlbHit num_frames s a hp
    rw [if_neg hp] at hins
    have e : (step num_frames store s a).1.count - (step num_frames store s a).1.hits =
        s.count - s.hits + 1 := by omega
    refine { hits_le := by omega, index_eq := ?_, fresh := ?_, distinct := ?_ }
    · rw [e3, e, hidx]; omega
    · intro i hi hge
      rw [e] at hge
      rw [e1, Function.update_noteq (by rw [hidx]; omega)]
      exact h.fresh i hi (by omega)
    · intro i j hi hj hij
      rw [e1, e, Function.update_apply, Function.update_apply]
      by_cases hik : i = s.tlb.index
      · rw [if_pos hik]
        have hjk : j ≠ s.tlb.index := fun e2 => hij (by rw [hik, e2])
        rw [if_neg hjk]
        intro heq
        exact absurd heq.symm (hmiss j hj)
      · rw [if_neg hik]
        by_cases hjk : j = s.tlb.index
        · rw [if_pos hjk]
          intro heq
          exact absurd heq (hmiss i hi)
        · rw [if_neg hjk]
          intro heq
          obtain ⟨h1, h2⟩ := h.distinct i j hi hj hij heq
          rw [hidx] at hik hjk
          omega

theorem ring_final (num_frames : Nat) (store : List Nat) (as : List Nat) :
    ∀ s, Ring s → Ring (final num_frames store s as) := by
  induction as with
  | nil => intro s hs; exact hs
  | cons a as ih => intro s hs; exact ih _ (ring_step num_frames store s a hs)

theorem final_inserts_ge (num_frames : Nat) (store : List Nat) (bs : List Nat) :
    ∀ s, (final num_frames store s bs).hits + s.count ≤
      (final num_frames store s bs).count + s.hits := by
  induction bs with
  | nil =>
    intro s
    show s.hits + s.count ≤ s.count + s.hits
    omega
  | cons b bs ih =>
    intro s
    have h1 := ih (step num_frames store s b).1
    have h2 := step_inserts num_frames store s b
    show (final num_frames store (step num_frames store s b).1 bs).hits + s.count ≤
      (final num_frames store (step num_frames store s b).1 bs).count + s.hits
    split_ifs at h2 <;> omega

theorem slot_kept (num_frames : Nat) (store : List Nat) (bs : List Nat) :
    ∀ (s : State) (i : Nat), s.tlb.index < 16 → i < 16 →
      (final num_frames store s bs).count + s.hits ≤
        (final num_frames store s bs).hits + s.count + (i + 16 - s.tlb.index) % 16 →
      (final num_frames store s bs).tlb.page i = s.tlb.page i ∧
      (final num_frames store s bs).tlb.frame i = s.tlb.frame i := by
  induction bs with
  | nil => intro s i _ _ _; exact ⟨rfl, rfl⟩
  | cons b bs ih =>
    intro s i hs hi hle
    change (final num_frames store (step num_frames store s b).1 bs).count + s.hits ≤
      (final num_frames store (step num_frames store s b).1 bs).hits + s.count +
        (i + 16 - s.tlb.index) % 16 at hle
    show (final num_frames store (step num_frames store s b).1 bs).tlb.page i = s.tlb.page i ∧
      (final num_frames store (step num_frames store s b).1 bs).tlb.frame i = s.tlb.frame i
    have hge := final_inserts_ge num_frames store bs (step num_frames store s b).1
    have hins := step_inserts num_frames store s b
    by_cases hp : path num_frames s b = Path.tlbHit
    · have htlb : (step num_frames store s b).1.tlb = s.tlb := by rw [step_tlb, if_pos hp]
      rw [if_pos hp] at hins
      have := ih (step num_frames store s b).1 i (by rw [htlb]; exact hs) hi
        (by rw [htlb]; omega)
      rw [htlb] at this
      exact this
    · obtain ⟨e1, e2, e3⟩ := step_tlb_miss num_frames store s b hp
      rw [if_neg hp] at hins
      have hik : i ≠ s.tlb.index := by
        intro e; rw [e] at hle; omega
      have := ih (step num_frames store s b).1 i (by rw [e3]; omega) hi
        (by rw [e3]; omega)
      rw [e1, e2, Function.update_noteq hik, Function.update_noteq hik] at this
      exact this

/-- C18: in every state reached from the initial state the cursor is below 16
and equals the number of inserts made so far (`count - hits`) modulo 16.  A
TLB hit leaves the TLB and the number of inserts unchanged.  Any other address
is one more insert: it writes the page and the frame resolved for it into the
slot at the cursor, leaves the other slots unchanged and advances the cursor
by one modulo 16.  The slot written by insert number `j` keeps its content
while at most 15 further inserts happen, whatever the hits in between, and the
cursor is back on it when 16 inserts have followed, so that insert `j + 16`
is the one that overwrites it. -/
theorem tlb_fifo_ring (num_frames : Nat) (store : List Nat) (mem0 : Nat → Int)
    (as : List Nat) (a : Nat) :
    ((final num_frames store (init mem0) as).hits ≤ (final num_frames store (init mem0) as).count ∧
      (final num_frames store (init mem0) as).tlb.index < 16 ∧
      (final num_frames store (init mem0) as).tlb.index =
        ((final num_frames store (init mem0) as).count -
          (final num_frames store (init mem0) as).hits) % 16) ∧
    (path num_frames (final num_frames store (init mem0) as) a = Path.tlbHit →
      (step num_frames store (final num_frames store (init mem0) as) a).1.tlb =
        (final num_frames store (init mem0) as).tlb ∧
      (step num_frames store (final num_frames store (init mem0) as) a).1.count -
        (step num_frames store (final num_frames store (init mem0) as) a).1.hits =
        (final num_frames store (init mem0) as).count -
          (final num_frames store (init mem0) as).hits) ∧
    (path num_frames (final num_frames store (init mem0) as) a ≠ Path.tlbHit →
      (step num_frames store (final num_frames store (init mem0) as) a).1.tlb.page =
        Function.update (final num_frames store (init mem0) as).tlb.page
          (final num_frames store (init mem0) as).tlb.index (decode a).1 ∧
      (step num_frames store (final num_frames store (init mem0) as) a).1.tlb.frame =
        Function.update (final num_frames store (init mem0) as).tlb.frame
          (final num_frames store (init mem0) as).tlb.index
          (toUChar ((step num_frames store (final num_frames store (init mem0) as) a).1.pt.table
            (decode a).1)) ∧
      (step num_frames store (final num_frames store (init mem0) as) a).1.tlb.index =
        ((final num_frames store (init mem0) as).tlb.index + 1) % 16 ∧
      (step num_frames store (final num_frames store (init mem0) as) a).1.count -
        (step num_frames store (final num_frames store (init mem0) as) a).1.hits =
        (final num_frames store (init mem0) as).count -
          (final num_frames store (init mem0) as).hits + 1 ∧
      ∀ bs : List Nat,
        ((final num_frames store
            (step num_frames store (final num_frames store (init mem0) as) a).1 bs).count -
          (final num_frames store
            (step num_frames store (final num_frames store (init mem0) as) a).1 bs).hits ≤
          (final num_frames store (init mem0) as).count -
            (final num_frames store (init mem0) as).hits + 16 →
          (final num_frames store
            (step num_frames store (final num_frames store (init mem0) as) a).1 bs).tlb.page
              (final num_frames store (init mem0) as).tlb.index = (decode a).1 ∧
          (final num_frames store
            (step num_frames store (final num_frames store (init mem0) as) a).1 bs).tlb.frame
              (final num_frames store (init mem0) as).tlb.index =
            toUChar ((step num_frames store (final num_frames store (init mem0) as) a).1.pt.table
              (decode a).1)) ∧
        ((final num_frames store
            (step num_frames store (final num_frames store (init mem0) as) a).1 bs).count -
          (final num_frames store
            (step num_frames store (final num_frames store (init mem0) as) a).1 bs).hits =
          (final num_frames store (init mem0) as).count -
            (final num_frames store (init mem0) as).hits + 16 →
          (final num_frames store
            (step num_frames store (final num_frames store (init mem0) as) a).1 bs).tlb.index =
            (final num_frames store (init mem0) as).tlb.index)) := by
  have hr : Ring (final num_frames store (init mem0) as) :=
    ring_final num_frames store as _ (ring_init mem0)
  generalize final num_frames store (init mem0) as = t at hr ⊢
  have hle := hr.hits_le
  have hidx := hr.index_eq
  have hlt : t.tlb.index < 16 := by rw [hidx]; omega
  have hins := step_inserts num_frames store t a
  have hr1 := ring_step num_frames store t a hr
  refine ⟨⟨hle, hlt, hidx⟩, ?_, ?_⟩
  · intro hp
    rw [if_pos hp] at hins
    refine ⟨by rw [step_tlb, if_pos hp], by omega⟩
  · intro hp
    rw [if_neg hp] at hins
    obtain ⟨e1, e2, e3⟩ := step_tlb_miss num_frames store t a hp
    have hcnt : (step num_frames store t a).1.count - (step num_frames store t a).1.hits =
        t.count - t.hits + 1 := by omega
    refine ⟨e1, e2, e3, hcnt, ?_⟩
    intro bs
    have hru := ring_final num_frames store bs _ hr1
    have hge := final_inserts_ge num_frames store bs (step num_frames store t a).1
    have hule := hru.hits_le
    refine ⟨?_, ?_⟩
    · intro hbound
      have hk := slot_kept num_frames store bs (step num_frames store t a).1 t.tlb.index
        (by rw [e3]; omega) hlt (by rw [e3]; omega)
      rw [e1, e2, Function.update_same, Function.update_same] at hk
      exact hk
    · intro heq
      rw [hru.index_eq, heq, hidx]
      omega

/-- C19 as stated fails: there is no stream, state reached on it and next
address such that the address takes a page fault while some TLB slot holds its
page. -/
theorem no_fault_on_cached_page :
    ¬ ∃ (num_frames : Nat) (store : List Nat) (mem0 : Nat → Int) (as : List Nat) (a i : Nat),
      i < 16 ∧
      (path num_frames (final num_frames store (init mem0) as) a = Path.faultAlloc ∨
        path num_frames (final num_frames store (init mem0) as) a = Path.faultEvict) ∧
      (final num_frames store (init mem0) as).tlb.page i = (decode a).1 := by
  rintro ⟨num_frames, store, mem0, as, a, i, hi, hp, he⟩
  have hne : path num_frames (final num_frames store (init mem0) as) a ≠ Path.tlbHit := by
    rcases hp with h | h <;> rw [h] <;> decide
  exact path_ne_tlbHit num_frames _ a hne i hi he

/-- C19, amended: in every state reached from the initial state, an address
that is not a TLB hit (a page fault in particular) finds its page in none of
the 16 slots, and after its insert the page is in exactly one slot, the one
the cursor was on; two different slots hold the same page only while no insert
has reached either of them, and the page is then the initial 255. -/
theorem tlb_pages_distinct (num_frames : Nat) (store : List Nat) (mem0 : Nat → Int)
    (as : List Nat) (a : Nat) :
    (path num_frames (final num_frames store (init mem0) as) a ≠ Path.tlbHit →
      (∀ i, i < 16 → (final num_frames store (init mem0) as).tlb.page i ≠ (decode a).1) ∧
      (∀ i, i < 16 →
        ((step num_frames store (final num_frames store (init mem0) as) a).1.tlb.page i =
            (decode a).1 ↔
          i = (final num_frames store (init mem0) as).tlb.index))) ∧
    (∀ i j, i < 16 → j < 16 → i ≠ j →
      (final num_frames store (init mem0) as).tlb.page i =
        (final num_frames store (init mem0) as).tlb.page j →
      (final num_frames store (init mem0) as).tlb.page i = 255 ∧
      (final num_frames store (init mem0) as).count -
        (final num_frames store (init mem0) as).hits ≤ i ∧
      (final num_frames store (init mem0) as).count -
        (final num_frames store (init mem0) as).hits ≤ j) := by
  have hr : Ring (final num_frames store (init mem0) as) :=
    ring_final num_frames store as _ (ring_init mem0)
  generalize final num_frames store (init mem0) as = t at hr ⊢
  refine ⟨?_, ?_⟩
  · intro hp
    have hmiss := path_ne_tlbHit num_frames t a hp
    obtain ⟨e1, -, -⟩ := step_tlb_miss num_frames store t a hp
    refine ⟨hmiss, ?_⟩
    intro i hi
    rw [e1, Function.update_apply]
    by_cases hik : i = t.tlb.index
    · simp [hik]
    · simp [hik, hmiss i hi]
  · intro i j hi hj hij heq
    obtain ⟨h1, h2⟩ := hr.distinct i j hi hj hij heq
    exact ⟨hr.fresh i hi h1, h1, h2⟩

/-! ## The victim and the TLB -/

/-- C12 as stated fails: with 128 frames there is no stream, state reached on
it and next address such that the address takes the eviction branch while some
TLB slot holds the page the scan selects as victim. -/
theorem no_cached_victim :
    ¬ ∃ (store : List Nat) (mem0 : Nat → Int) (as : List Nat) (a i : Nat),
      i < 16 ∧
      path 128 (final 128 store (init mem0) as) a = Path.faultEvict ∧
      (final 128 store (init mem0) as).tlb.page i =
        victim (final 128 store (init mem0) as).pt.counter := by
  rintro ⟨store, mem0, as, a, i, hi, hp, he⟩
  have hg : GInv (final 128 store (init mem0) as) :=
    ginv_final 128 store as _ (ginv_init mem0)
  have hfull := ((path_faultEvict_iff 128 _ a).mp hp).2.2
  exact ginv_victim_not_in_tlb 128 _ hg (by decide) hfull i hi he

/-- C12, amended: for 128 or 256 frames, in every state reached from the
initial state, when the next address takes the eviction branch the page
selected as victim is held by no TLB slot, and after the step a slot holds
the victim only if the victim is the faulting page itself. -/
theorem victim_not_cached (num_frames : Nat) (store : List Nat) (mem0 : Nat → Int)
    (as : List Nat) (a : Nat) (hnf : num_frames = 128 ∨ num_frames = 256)
    (hev : path num_frames (final num_frames store (init mem0) as) a = Path.faultEvict) :
    (∀ i, i < 16 → (final num_frames store (init mem0) as).tlb.page i ≠
      victim (final num_frames store (init mem0) as).pt.counter) ∧
    (∀ i, i < 16 →
      (step num_frames store (final num_frames store (init mem0) as) a).1.tlb.page i =
        victim (final num_frames store (init mem0) as).pt.counter →
      victim (final num_frames store (init mem0) as).pt.counter = (decode a).1) := by
  have hg : GInv (final num_frames store (init mem0) as) :=
    ginv_final num_frames store as _ (ginv_init mem0)
  generalize final num_frames store (init mem0) as = t at hg hev ⊢
  have hfull := ((path_faultEvict_iff num_frames t a).mp hev).2.2
  have hnot := ginv_victim_not_in_tlb num_frames t hg (by omega) hfull
  refine ⟨hnot, ?_⟩
  intro i hi
  have hne : path num_frames t a ≠ Path.tlbHit := by rw [hev]; decide
  rw [(step_tlb_miss num_frames store t a hne).1, Function.update_apply]
  split_ifs with h
  · exact fun e => e.symm
  · exact fun e => absurd e (hnot i hi)

/-- Witness of `victim_not_cached`: 128 frames, the stream 65280 followed by
one address on each of the pages 0..127, and next address 32768, which takes
the eviction branch. -/
theorem victim_not_cached_witness :
    path 128 (final 128 [] (init fun _ => 0)
      (65280 :: (List.range 128).map fun p => p * 256)) (128 * 256) = Path.faultEvict ∧
    (∀ i, i < 16 → (final 128 [] (init fun _ => 0)
        (65280 :: (List.range 128).map fun p => p * 256)).tlb.page i ≠
      victim (final 128 [] (init fun _ => 0)
        (65280 :: (List.range 128).map fun p => p * 256)).pt.counter) :=
  ⟨(fill_evict [] _ (fill_upto 128 [] (fun _ => 0) 128 (le_refl _) (by decide))).1,
    (victim_not_cached 128 [] (fun _ => 0) (65280 :: (List.range 128).map fun p => p * 256)
      (128 * 256) (Or.inl rfl)
      (fill_evict [] _ (fill_upto 128 [] (fun _ => 0) 128 (le_refl _) (by decide))).1).1⟩

/-! ## 256 frames -/

theorem validCount_eq_card (s : State) : validCount s = (validSet s).card := by
  unfold validCount validSet
  rw [Finset.card_def]
  simp [Finset.filter, Finset.range, Multiset.range]

theorem validSet_card_le_256 (s : State) : (validSet s).card ≤ 256 := by
  have : validSet s ⊆ Finset.range 256 := Finset.filter_subset _ _
  simpa using Finset.card_le_card this

theorem allocOnly_free_lt (s : State) (h : AllocOnly s) (p : Nat) (hp : p < 256)
    (hv : s.pt.valid p = 0) : s.free_frame < 256 := by
  rw [← h.valid_card]
  have hsub : validSet s ⊆ (Finset.range 256).erase p := by
    intro q hq
    obtain ⟨hq1, hq2⟩ := validSet_mem.mp hq
    rw [Finset.mem_erase, Finset.mem_range]
    refine ⟨?_, hq1⟩
    intro e; rw [e, hv] at hq2; omega
  have := Finset.card_le_card hsub
  rw [Finset.card_erase_of_mem (Finset.mem_range.mpr hp), Finset.card_range] at this
  omega

theorem allocOnly_no_evict (s : State) (h : AllocOnly s) (a : Nat) :
    path 256 s a ≠ Path.faultEvict := by
  intro hp
  obtain ⟨-, h2, h3⟩ := (path_faultEvict_iff 256 s a).mp hp
  exact h3 (allocOnly_free_lt s h _ (decode_fst_lt a) h2)

theorem allocOnly_init (mem0 : Nat → Int) : AllocOnly (init mem0) := by
  refine { valid01 := fun _ => Or.inl rfl, valid_card := ?_, faults := rfl }
  simp [validSet, init]

theorem allocOnly_step (store : List Nat) (s : State) (a : Nat) (h : AllocOnly s) :
    AllocOnly (step 256 store s a).1 ∧
    ∀ p, s.pt.valid p = 1 → (step 256 store s a).1.pt.valid p = 1 := by
  have hne := allocOnly_no_evict s h a
  obtain ⟨-, -, c3, c4⟩ := step_counters 256 store s a
  have hvalid : ∀ q, (step 256 store s a).1.pt.valid q =
      if path 256 s a = Path.faultAlloc ∧ q = (decode a).1 then 1 else s.pt.valid q := by
    intro q
    rw [step_valid]
    simp [hne]
  refine ⟨{ valid01 := ?_, valid_card := ?_, faults := ?_ }, ?_⟩
  · intro p; rw [hvalid]; split_ifs
    · exact Or.inr rfl
    · exact h.valid01 p
  · rw [c4]
    by_cases hp : path 256 s a = Path.faultAlloc
    · obtain ⟨-, h2, -⟩ := (path_faultAlloc_iff 256 s a).mp hp
      have e : validSet (step 256 store s a).1 = insert (decode a).1 (validSet s) := by
        ext q
        rw [Finset.mem_insert, validSet_mem, validSet_mem, hvalid]
        by_cases hq : q = (decode a).1
        · have := decode_fst_lt a
          simp [hq, hp]; omega
        · simp [hq]
      have hnot : (decode a).1 ∉ validSet s := by
        rw [validSet_mem, h2]; simp
      rw [e, Finset.card_insert_of_not_mem hnot, h.valid_card, if_pos hp]
    · have e : validSet (step 256 store s a).1 = validSet s := by
        ext q
        rw [validSet_mem, validSet_mem, hvalid]
        simp [hp]
      rw [e, h.valid_card, if_neg hp]
      rfl
  · rw [c3, c4, h.faults]
    simp [hne]
  · intro p hp
    rw [hvalid, hp]
    simp

theorem allocOnly_final (store : List Nat) (as : List Nat) :
    ∀ s, AllocOnly s → AllocOnly (final 256 store s as) ∧
      ∀ p, s.pt.valid p = 1 → (final 256 store s as).pt.valid p = 1 := by
  induction as with
  | nil => intro s hs; exact ⟨hs, fun _ h => h⟩
  | cons a as ih =>
    intro s hs
    obtain ⟨h1, h2⟩ := allocOnly_step store s a hs
    obtain ⟨h3, h4⟩ := ih _ h1
    exact ⟨h3, fun p hp => h4 p (h2 p hp)⟩

/-- C20: with 256 frames, in every state reached from the initial state no
address takes the eviction branch, the number of valid entries equals
`free_frame`, which equals the number of page faults and is at most 256; and
on one stream two different positions whose addresses decode to the same page
do not both take a page fault. -/
theorem no_eviction_with_256_frames (store : List Nat) (mem0 : Nat → Int) (as : List Nat)
    (a : Nat) :
    path 256 (final 256 store (init mem0) as) a ≠ Path.faultEvict ∧
    ((path 256 (final 256 store (init mem0) as) a = Path.tlbHit ∨
        path 256 (final 256 store (init mem0) as) a = Path.tableHit) ∨
      path 256 (final 256 store (init mem0) as) a = Path.faultAlloc) ∧
    validCount (final 256 store (init mem0) as) = (final 256 store (init mem0) as).free_frame ∧
    (final 256 store (init mem0) as).page_fault = (final 256 store (init mem0) as).free_frame ∧
    (final 256 store (init mem0) as).page_fault ≤ 256 ∧
    (∀ j k b c, j < k → as[j]? = some b → as[k]? = some c →
      (decode b).1 = (decode c).1 →
      path 256 (final 256 store (init mem0) (as.take j)) b = Path.faultAlloc →
      path 256 (final 256 store (init mem0) (as.take k)) c = Path.tlbHit ∨
        path 256 (final 256 store (init mem0) (as.take k)) c = Path.tableHit) := by
  have hall : ∀ bs, AllocOnly (final 256 store (init mem0) bs) :=
    fun bs => (allocOnly_final store bs _ (allocOnly_init mem0)).1
  have hne := allocOnly_no_evict _ (hall as) a
  have hcases : ∀ (s : State) (x : Nat), path 256 s x ≠ Path.faultEvict →
      path 256 s x ≠ Path.faultAlloc →
      path 256 s x = Path.tlbHit ∨ path 256 s x = Path.tableHit := by
    intro s x h1 h2
    cases hp : path 256 s x with
    | tlbHit => exact Or.inl rfl
    | tableHit => exact Or.inr rfl
    | faultAlloc => exact absurd hp h2
    | faultEvict => exact absurd hp h1
  refine ⟨hne, ?_, ?_, (hall as).faults, ?_, ?_⟩
  · by_cases hp : path 256 (final 256 store (init mem0) as) a = Path.faultAlloc
    · exact Or.inr hp
    · exact Or.inl (hcases _ a hne hp)
  · rw [validCount_eq_card, (hall as).valid_card]
  · rw [(hall as).faults, ← (hall as).valid_card]
    exact validSet_card_le_256 _
  · intro j k b c hjk hb hc hpage hfault
    have hj : j < as.length := by
      by_contra hge
      rw [List.getElem?_eq_none (by omega)] at hb
      exact absurd hb (by simp)
    have hbj : as[j] = b := by
      rw [List.getElem?_eq_getElem hj] at hb
      exact Option.some.inj hb
    have hv1 : (final 256 store (init mem0) (as.take (j + 1))).pt.valid (decode b).1 = 1 := by
      rw [final_take_succ 256 store (init mem0) as j hj, hbj, step_valid, hfault]
      simp
    have hsplit : as.take k = as.take (j + 1) ++ (as.take k).drop (j + 1) := by
      have := (List.take_append_drop (j + 1) (as.take k)).symm
      rw [List.take_take, Nat.min_eq_left (by omega)] at this
      exact this
    have hv2 : (final 256 store (init mem0) (as.take k)).pt.valid (decode c).1 = 1 := by
      rw [hsplit, final_append, ← hpage]
      exact (allocOnly_final store _ _ (hall _)).2 _ hv1
    apply hcases _ c (allocOnly_no_evict _ (hall _) c)
    intro hp
    have := ((path_faultAlloc_iff 256 _ c).mp hp).2.1
    omega

/-- C13, evaluated at the failing input: with 128 frames, after address 65280
and one address on each of the pages 0..127, the allocation counter is 128 and
address 32768 (page 128) takes the eviction branch; the scan selects page 255,
which is not valid and has table entry -1, no frame of the pool, and the
faulting page is left with table entry -1 and physical address 255*256. -/
theorem eviction_selects_invalid_page (store : List Nat) (mem0 : Nat → Int) :
    (final 128 store (init mem0)
      (65280 :: (List.range 128).map fun p => p * 256)).free_frame = 128 ∧
    path 128 (final 128 store (init mem0)
      (65280 :: (List.range 128).map fun p => p * 256)) (128 * 256) = Path.faultEvict ∧
    victim (final 128 store (init mem0)
      (65280 :: (List.range 128).map fun p => p * 256)).pt.counter = 255 ∧
    (final 128 store (init mem0)
      (65280 :: (List.range 128).map fun p => p * 256)).pt.valid 255 = 0 ∧
    (final 128 store (init mem0)
      (65280 :: (List.range 128).map fun p => p * 256)).pt.table 255 = -1 ∧
    (step 128 store (final 128 store (init mem0)
      (65280 :: (List.range 128).map fun p => p * 256)) (128 * 256)).1.pt.table 128 = -1 ∧
    (step 128 store (final 128 store (init mem0)
      (65280 :: (List.range 128).map fun p => p * 256)) (128 * 256)).2 =
      { logical := 128 * 256, physical := 255 * 256 + 0, value := none } := by
  have hfill := fill_upto 128 store mem0 128 (le_refl _) (by decide)
  obtain ⟨h1, h2, h3, h4, -, h6⟩ := fill_evict store _ hfill
  rw [h2] at h3 h4
  refine ⟨hfill.free, h1, h2, h3, h4, ?_, h6⟩
  have hd : (decode (128 * 256)).1 = 128 := by decide
  have hc : toChar (-1) = -1 := by decide
  rw [step_table, h1, h2, hd, h4, hc]
  simp

/-! ## Start of `main` -/

/-- C11, evaluated at the failing input: started with size 128 and a backing
store that cannot be opened, the program ends with the open-failure message
but has already truncated the existing `output128.csv` to length zero; with
size 256 it has created `output256.csv`, which did not exist.  With a size
other than 128 and 256 the files are left as they were. -/
theorem open_failure_truncates_output :
    demoFiles missingStore = none ∧
    demoFiles output128 = some [55, 54, 56, 44, 48, 44, 55, 10] ∧
    (startup 128 missingStore addressList demoFiles).2 = Startup.openFailed ∧
    (startup 128 missingStore addressList demoFiles).1 output128 = some [] ∧
    demoFiles output256 = none ∧
    (startup 256 missingStore addressList demoFiles).2 = Startup.openFailed ∧
    (startup 256 missingStore addressList demoFiles).1 output256 = some [] ∧
    (∀ (size : Int) (fs : String → Option (List Nat)), size ≠ 128 → size ≠ 256 →
      startup size missingStore addressList fs = (fs, Startup.invalidSize)) := by
  refine ⟨by decide, by decide, by decide, by decide, by decide, by decide, by decide, ?_⟩
  intro size fs h1 h2
  unfold startup selectSize
  rw [if_neg h2, if_neg h1]

end Mmu
